import Mathlib

/-!
Verification of the document-coordinate and metadata-indexing core of
`lookout-sdk-ml` (files `lookout/core/annotations/annotated_data.py`,
`lookout/core/annotations/annotation.py` and
`lookout/core/bytes_to_unicode_converter.py`).

Documents are byte strings, modelled as `List Nat` (each entry a byte value).
Decoded text is a sequence of unicode code points, also modelled as
`List Nat`.  Python/numpy indexing quirks that the source relies on
(negative-index wrap-around, `numpy.argmax` over booleans, slice clamping,
dict insertion order, `SortedDict` key order) are modelled explicitly.
Fallible operations return `Option` (`none` models an uncaught Python
exception such as `KeyError`/`IndexError`/`ValueError`) or `Except` where
the source raises a deliberate, distinguished error.
-/

set_option maxRecDepth 4000

/-- Python sequence indexing `l[i]`: a negative index wraps around once;
out-of-range indices raise `IndexError` (modelled as `none`).  numpy 1-d
integer indexing behaves the same way. -/
def pyGet (l : List α) (i : Int) : Option α :=
  if 0 ≤ i then l.get? i.toNat
  else if 0 ≤ i + l.length then l.get? (i + l.length).toNat
  else none

/-- `numpy.argmax` over a boolean vector: index of the first `true`, or `0`
when every entry is `false`.  (On an empty vector numpy raises; callers
guard for that case before calling.) -/
def pyArgmax (l : List Bool) : Nat :=
  if l.contains true then l.findIdx (fun b => b) else 0

/-- Resolve one bound of a Python slice `l[a:b]` to a clamped index. -/
def pySliceIdx (n : Nat) (i : Int) : Nat :=
  if i < 0 then ((n : Int) + i).toNat else min i.toNat n

/-- Python slicing `l[a:b]` (no step): clamped, never raising. -/
def pySlice (l : List α) (a b : Int) : List α :=
  (l.take (pySliceIdx l.length b)).drop (pySliceIdx l.length a)

/-- `numpy.cumsum`, starting from a running total `acc`. -/
def cumsumFrom (acc : Int) : List Int → List Int
  | [] => []
  | x :: xs => (acc + x) :: cumsumFrom (acc + x) xs

/-- `numpy.cumsum` of an integer vector. -/
def cumsum (l : List Int) : List Int := cumsumFrom 0 l

/-- First-match lookup in an association list; models `d[k]` for a Python
`dict` / `sortedcontainers.SortedDict` (whose keys are unique). -/
def alookup [DecidableEq κ] (k : κ) : List (κ × α) → Option α
  | [] => none
  | (k0, v) :: rest => if k0 = k then some v else alookup k rest

/-- Python `d[k] = v` on an (insertion-ordered) `dict`: overwrite in place
when the key exists, append otherwise. -/
def pdSet [DecidableEq κ] (k : κ) (v : α) : List (κ × α) → List (κ × α)
  | [] => [(k, v)]
  | (k0, v0) :: rest =>
    if k0 = k then (k, v) :: rest else (k0, v0) :: pdSet k v rest

/-!
## `RawData` (`annotated_data.py`, lines 40-81)

`RawData.__init__` stores the documents and
`self._doc_start_offset = numpy.array([0] + [len(d) for d in docs[:-1]]).cumsum()`.
The constructor asserts that the collection is non-empty; theorems carry
that as a hypothesis.
-/

/-- `[0] + [len(d) for d in self._document_collection[:-1]]`. -/
def docLens (docs : List (List Nat)) : List Int :=
  0 :: docs.dropLast.map (fun d => (d.length : Int))

/-- `self._doc_start_offset`. -/
def docStartOffset (docs : List (List Nat)) : List Int :=
  cumsum (docLens docs)

/-- `RawData._offset_to_doc_index`:
`doc_index = numpy.argmax(self._doc_start_offset > offset) - 1` followed by
`offset - self._doc_start_offset[doc_index]` (numpy negative indexing). -/
def offsetToDocIndex (docs : List (List Nat)) (offset : Int) :
    Option (Int × Int) :=
  let starts := docStartOffset docs
  if starts.isEmpty then none
  else
    let docIndex : Int :=
      (pyArgmax (starts.map (fun s => decide (s > offset))) : Int) - 1
    match pyGet starts docIndex with
    | some s => some (docIndex, offset - s)
    | none => none

/-- `RawData.__getitem__` with an `int` index: resolve the owning document
and return `self._document_collection[doc_index][doc_offset]`. -/
def rawGetItemInt (docs : List (List Nat)) (offset : Int) : Option Nat :=
  (offsetToDocIndex docs offset).bind fun di =>
    (pyGet docs di.1).bind fun doc => pyGet doc di.2

/-- `RawData._get_range`: resolve `start` and `stop - 1`; raise
`IndexError("You can get data only from one document from collection")`
(modelled `Except.error ()`) when they land in different documents,
otherwise return `doc[doc_offset_start : doc_offset_end + 1]`. -/
def getRangeRD (docs : List (List Nat)) (start stop : Int) :
    Option (Except Unit (List Nat)) :=
  (offsetToDocIndex docs start).bind fun ds =>
    (offsetToDocIndex docs (stop - 1)).bind fun de =>
      if ds.1 ≠ de.1 then some (Except.error ())
      else
        (pyGet docs ds.1).map fun doc =>
          Except.ok (pySlice doc ds.2 (de.2 + 1))

/-- `RawData.get_docs_range`:
`tuple(zip(self._doc_start_offset, self._doc_start_offset[1:]))`. -/
def getDocsRange (docs : List (List Nat)) : List (Int × Int) :=
  (docStartOffset docs).zip (docStartOffset docs).tail

/-- Specification-side prefix length: total byte length of the first `d`
documents (`prefix(doc)` in the spec). -/
def prefixLen (docs : List (List Nat)) (d : Nat) : Int :=
  ((docs.take d).map (fun x => (x.length : Int))).sum

/-- Specification-side total length of the buffer. -/
def totalLen (docs : List (List Nat)) : Int :=
  prefixLen docs docs.length

/-!
## Parse-tree data model (`bblfsh.Node` as the converter sees it)

A node carries a start and an end position (`offset`, `line`, `col`) and a
list of children.  For the frame/effect claims the live object graph is
modelled as a heap (`List NodeData`) of nodes addressed by index, with the
pure tree `UNode` used to describe well-formed heaps.
-/

/-- `bblfsh.Position`: integer `offset`, `line`, `col`. -/
structure Position where
  offset : Int
  line : Int
  col : Int
deriving DecidableEq, Repr

/-- A pure parse tree: positions plus children. -/
inductive UNode where
  | mk (startPos : Position) (endPos : Position) (children : List UNode)
deriving Repr

/-- One heap cell: a node's two positions and the heap indices of its
children. -/
structure NodeData where
  startPosition : Position
  endPosition : Position
  children : List Nat
deriving DecidableEq, Repr

/-- The mutable object store for parse-tree nodes. -/
abbrev Heap := List NodeData

/-!
## Annotation model (`annotation.py`)

`Annotation` carries a type name and a half-open range; `ValuedAnnotation`
additionally a payload.  The concrete subclasses fix the name
(`"path"`, `"uast_node"`, `"language"`, `"token"`, ...).
-/

/-- Payload of a `ValuedAnnotation` (`none` for a plain marker). -/
inductive AnnValue where
  | noValue : AnnValue
  | str : String → AnnValue
  | uast : UNode → AnnValue
deriving Repr

/-- An annotation record: type name, range, optional payload. -/
structure Annot where
  name : String
  start : Int
  stop : Int
  value : AnnValue
deriving Repr

/-- `Annotation.range`. -/
def Annot.range (a : Annot) : Int × Int := (a.start, a.stop)

/-- `PathAnnotation(start, stop, path)`. -/
def pathAnnot (start stop : Int) (p : String) : Annot :=
  ⟨"path", start, stop, AnnValue.str p⟩

/-- `UASTNodeAnnotation(start, stop, node)`. -/
def uastNodeAnnot (start stop : Int) (u : UNode) : Annot :=
  ⟨"uast_node", start, stop, AnnValue.uast u⟩

/-- `LanguageAnnotation(start, stop, language)`. -/
def languageAnnot (start stop : Int) (l : String) : Annot :=
  ⟨"language", start, stop, AnnValue.str l⟩

/-- `TokenAnnotation(start, stop)` (marker, no payload). -/
def tokenAnnot (start stop : Int) : Annot :=
  ⟨"token", start, stop, AnnValue.noValue⟩

/-- Python tuple comparison `(a, b) < (c, d)`: lexicographic. -/
def rangeLt (r1 r2 : Int × Int) : Bool :=
  r1.1 < r2.1 || (r1.1 = r2.1 && r1.2 < r2.2)

/-- `sortedcontainers.SortedDict.__setitem__`: keep keys in ascending
order, overwriting in place when the key is already present. -/
def sdSet (k : Int × Int) (v : α) :
    List ((Int × Int) × α) → List ((Int × Int) × α)
  | [] => [(k, v)]
  | (k0, v0) :: rest =>
    if k0 = k then (k, v) :: rest
    else if rangeLt k k0 then (k, v) :: (k0, v0) :: rest
    else (k0, v0) :: sdSet k v rest

/-- In-place update of the value stored under an existing key
(`d[k].mutate()`); the key's position is unchanged. -/
def updateAt [DecidableEq κ] (k : κ) (f : α → α) :
    List (κ × α) → List (κ × α)
  | [] => []
  | (k0, v) :: rest =>
    if k0 = k then (k0, f v) :: rest else (k0, v) :: updateAt k f rest

/-!
## `AnnotatedData` (`annotated_data.py`, lines 84-182)

`_range_to_annotations` is a `SortedDict` from range to a `dict` of
annotations keyed by type name; `_type_to_annotations` is a `dict` from
type name to a `SortedDict` from range to annotation.
-/

/-- The store: the coupled raw data and the two indices. -/
structure AnnotatedData where
  rawData : List (List Nat)
  rangeToAnnots : List ((Int × Int) × List (String × Annot))
  typeToAnnots : List (String × List ((Int × Int) × Annot))
deriving Repr

/-- `AnnotatedData.__init__`: both indices start empty. -/
def AnnotatedData.init (docs : List (List Nat)) : AnnotatedData :=
  ⟨docs, [], []⟩

/-- `AnnotatedData.add`: create missing outer entries, then set the
`(range, name)` entry in the range index and the `(name, range)` entry in
the type index. -/
def addAnnot (st : AnnotatedData) (a : Annot) : AnnotatedData :=
  let r2a := if (alookup a.range st.rangeToAnnots).isSome then
      st.rangeToAnnots else sdSet a.range [] st.rangeToAnnots
  let t2a := if (alookup a.name st.typeToAnnots).isSome then
      st.typeToAnnots else pdSet a.name [] st.typeToAnnots
  { st with
    rangeToAnnots := updateAt a.range (fun m => pdSet a.name a m) r2a,
    typeToAnnots := updateAt a.name (fun m => sdSet a.range a m) t2a }

/-- One step of `AnnotatedData.extend`:
`self._range_to_annotations[annotation.range][annotation.name] = annotation`
(a `KeyError` here leaves the store untouched), then
`self._type_to_annotations[annotation.name][annotation.range] = annotation`
(a `KeyError` here happens after the range index was already updated).
`Except.error` carries the state at the uncaught `KeyError`. -/
def extendOne (st : AnnotatedData) (a : Annot) :
    Except AnnotatedData AnnotatedData :=
  match alookup a.range st.rangeToAnnots with
  | none => Except.error st
  | some _ =>
    let st1 := { st with
      rangeToAnnots := updateAt a.range (fun m => pdSet a.name a m)
        st.rangeToAnnots }
    match alookup a.name st1.typeToAnnots with
    | none => Except.error st1
    | some _ =>
      Except.ok { st1 with
        typeToAnnots := updateAt a.name (fun m => sdSet a.range a m)
          st1.typeToAnnots }

/-- `AnnotatedData.extend`: the loop over the given annotations, stopping
at the first uncaught `KeyError`. -/
def extendAnnots (st : AnnotatedData) :
    List Annot → Except AnnotatedData AnnotatedData
  | [] => Except.ok st
  | a :: rest =>
    match extendOne st a with
    | Except.error st1 => Except.error st1
    | Except.ok st1 => extendAnnots st1 rest

/-- `AnnotatedData.iter_annotation(name)` with no offsets: for each
`(range, value)` of `self._type_to_annotations[name]` (ascending range
order) yield `(self[range], value)`.  `none` models `KeyError` on an
unknown name or an uncaught `IndexError` from the slice. -/
def iterAnnot (st : AnnotatedData) (name : String) :
    Option (List (List Nat × Annot)) :=
  (alookup name st.typeToAnnots).bind fun sd =>
    sd.mapM fun ra =>
      (getRangeRD st.rawData ra.1.1 ra.1.2).bind fun e =>
        match e with
        | Except.ok bs => some (bs, ra.2)
        | Except.error _ => none

/-- The `Annotations` collection for one range (`annotated_data.py`,
lines 12-37): the range plus an insertion-ordered dict of annotations. -/
structure AnnotSet where
  start : Int
  stop : Int
  items : List (String × Annot)
deriving Repr

/-- `Annotations(*range, pairs)`: a dict built from the pairs in order. -/
def mkAnnotSet (r : Int × Int) (pairs : List (String × Annot)) : AnnotSet :=
  ⟨r.1, r.2, pairs.foldl (fun d kv => pdSet kv.1 kv.2 d) []⟩

/-- The loop body of `AnnotatedData.iter_annotations`: for each pair
yielded by `iter_annotation(names[0])`, look the range up in the range
index (`KeyError` → `none`), keep it when `frozenset(names)` is a subset
of its keys, and yield the slice with the `Annotations` built from `names`
in order. -/
def iterAnnotsAux (st : AnnotatedData) (names : List String) :
    List (List Nat × Annot) → Option (List (List Nat × AnnotSet))
  | [] => some []
  | (value, ann0) :: rest =>
    match alookup ann0.range st.rangeToAnnots with
    | none => none
    | some allAnns =>
      match iterAnnotsAux st names rest with
      | none => none
      | some tail =>
        if names.all (fun k => (alookup k allAnns).isSome) then
          some ((value, mkAnnotSet ann0.range
            (names.map (fun k => (k, (alookup k allAnns).getD ann0)))) :: tail)
        else some tail

/-- `AnnotatedData.iter_annotations(names)` with no offsets.  `names[0]`
on an empty sequence raises (`none`). -/
def iterAnnots (st : AnnotatedData) (names : List String) :
    Option (List (List Nat × AnnotSet)) :=
  match names with
  | [] => none
  | n0 :: _ => (iterAnnot st n0).bind (iterAnnotsAux st names)

/-- One record of the input batch (`lookout.sdk` `File`). -/
structure File where
  path : String
  content : List Nat
  uast : UNode
  language : String
deriving Repr

/-- `AnnotatedData.from_files`: build the raw data from the contents, zip
`get_docs_range()` with the files (Python `zip` stops at the shorter
sequence) and add a Path, a UASTNode and a Language annotation per pair.
(As written the source also passes a generator to `RawData.__init__`,
whose `assert len(...) > 0` raises `TypeError` under default interpreter
options; the model materialises the list, the behaviour with asserts
disabled.) -/
def fromFiles (files : List File) : AnnotatedData :=
  let docs := files.map (fun f => f.content)
  let fileRanges := getDocsRange docs
  (fileRanges.zip files).foldl
    (fun st p =>
      let st := addAnnot st (pathAnnot p.1.1 p.1.2 p.2.path)
      let st := addAnnot st (uastNodeAnnot p.1.1 p.1.2 p.2.uast)
      addAnnot st (languageAnnot p.1.1 p.1.2 p.2.language))
    (AnnotatedData.init docs)

/-!
## `BytesToUnicodeConverter` (`bytes_to_unicode_converter.py`)

`content.decode(errors="replace")` is CPython's UTF-8 decoder with the
`replace` error handler: it performs "substitution of maximal subparts" —
every maximal prefix of a valid multi-byte sequence that cannot be
completed is replaced by a single U+FFFD, and every byte that cannot start
or continue any sequence by one U+FFFD of its own.
-/

/-- U+FFFD, the replacement character. -/
def fffd : Nat := 0xFFFD

/-- Is `b` a UTF-8 continuation byte (`0x80..0xBF`)? -/
def contByte (b : Nat) : Bool := 0x80 ≤ b && b ≤ 0xBF

/-- Valid second byte after a three-byte lead `b` (E0 restricts to
`A0..BF`, ED to `80..9F`, the others take any continuation byte). -/
def cont2ok (b c1 : Nat) : Bool :=
  if b = 0xE0 then 0xA0 ≤ c1 && c1 ≤ 0xBF
  else if b = 0xED then 0x80 ≤ c1 && c1 ≤ 0x9F
  else contByte c1

/-- Valid second byte after a four-byte lead `b` (F0 restricts to
`90..BF`, F4 to `80..8F`). -/
def cont2okF (b c1 : Nat) : Bool :=
  if b = 0xF0 then 0x90 ≤ c1 && c1 ≤ 0xBF
  else if b = 0xF4 then 0x80 ≤ c1 && c1 ≤ 0x8F
  else contByte c1

/-- Code point of a two-byte sequence. -/
def scalar2 (b c1 : Nat) : Nat := (b - 0xC0) * 0x40 + (c1 - 0x80)

/-- Code point of a three-byte sequence. -/
def scalar3 (b c1 c2 : Nat) : Nat :=
  (b - 0xE0) * 0x1000 + (c1 - 0x80) * 0x40 + (c2 - 0x80)

/-- Code point of a four-byte sequence. -/
def scalar4 (b c1 c2 c3 : Nat) : Nat :=
  (b - 0xF0) * 0x40000 + (c1 - 0x80) * 0x1000 + (c2 - 0x80) * 0x40 + (c3 - 0x80)

/-- `bytes.decode("utf-8", errors="replace")`. -/
def utf8DecodeReplace : List Nat → List Nat
  | [] => []
  | b :: rest =>
    if b < 0x80 then b :: utf8DecodeReplace rest
    else if 0xC2 ≤ b && b ≤ 0xDF then
      match rest with
      | [] => [fffd]
      | c1 :: rest1 =>
        if contByte c1 then scalar2 b c1 :: utf8DecodeReplace rest1
        else fffd :: utf8DecodeReplace (c1 :: rest1)
    else if 0xE0 ≤ b && b ≤ 0xEF then
      match rest with
      | [] => [fffd]
      | c1 :: rest1 =>
        if cont2ok b c1 then
          match rest1 with
          | [] => [fffd]
          | c2 :: rest2 =>
            if contByte c2 then scalar3 b c1 c2 :: utf8DecodeReplace rest2
            else fffd :: utf8DecodeReplace (c2 :: rest2)
        else fffd :: utf8DecodeReplace (c1 :: rest1)
    else if 0xF0 ≤ b && b ≤ 0xF4 then
      match rest with
      | [] => [fffd]
      | c1 :: rest1 =>
        if cont2okF b c1 then
          match rest1 with
          | [] => [fffd]
          | c2 :: rest2 =>
            if contByte c2 then
              match rest2 with
              | [] => [fffd]
              | c3 :: rest3 =>
                if contByte c3 then scalar4 b c1 c2 c3 :: utf8DecodeReplace rest3
                else fffd :: utf8DecodeReplace (c3 :: rest3)
            else fffd :: utf8DecodeReplace (c2 :: rest2)
        else fffd :: utf8DecodeReplace (c1 :: rest1)
    else fffd :: utf8DecodeReplace rest

/-- `len(chr(c).encode())`: UTF-8 encoded length of a code point. -/
def csize (c : Nat) : Nat :=
  if c < 0x80 then 1 else if c < 0x800 then 2 else if c < 0x10000 then 3 else 4

/-- The loop body's increment: `len(char.encode())` for a character other
than U+FFFD, `1` for U+FFFD. -/
def contribution (c : Nat) : Nat := if c = fffd then 1 else csize c

/-- The `for i, char in enumerate(content_str)` loop of
`_build_bytes_to_str_offset_mapping`: running byte length `acc`, index
`i`, dict `d`; each step sets `d[acc + contribution(char)] = i + 1`. -/
def buildLoop : List Nat → Nat → Nat → List (Nat × Nat) → List (Nat × Nat)
  | [], _, _, d => d
  | c :: cs, i, acc, d =>
    buildLoop cs (i + 1) (acc + contribution c)
      (pdSet (acc + contribution c) (i + 1) d)

/-- `BytesToUnicodeConverter._build_bytes_to_str_offset_mapping`: start
from `{0: 0}`, run the loop over the decoded text, finally set
`mapping[len(content)] = len(content_str)`. -/
def buildBytesToStrOffsetMapping (content : List Nat) : List (Nat × Nat) :=
  let contentStr := utf8DecodeReplace content
  pdSet content.length contentStr.length (buildLoop contentStr 0 0 [(0, 0)])

/-- Python dict lookup of an `int` key in the byte-offset table. -/
def tblLookupI (tbl : List (Nat × Nat)) (k : Int) : Option Nat :=
  if k < 0 then none else alookup k.toNat tbl

/-- Line-terminator code points of `str.splitlines`. -/
def isLineBreak (c : Nat) : Bool :=
  c = 10 || c = 13 || c = 11 || c = 12 || c = 28 || c = 29 || c = 30 ||
    c = 133 || c = 8232 || c = 8233

/-- Accumulator pass of `str.splitlines(keepends=True)`: `cur` is the
reversed current line body; `\r\n` counts as a single terminator. -/
def splitAux (cur : List Nat) : List Nat → List (List Nat)
  | [] => if cur.isEmpty then [] else [cur.reverse]
  | c :: rest =>
    if c = 13 then
      match rest with
      | [] => [cur.reverse ++ [13]]
      | c2 :: rest2 =>
        if c2 = 10 then (cur.reverse ++ [13, 10]) :: splitAux [] rest2
        else (cur.reverse ++ [13]) :: splitAux [] (c2 :: rest2)
    else if isLineBreak c then (cur.reverse ++ [c]) :: splitAux [] rest
    else splitAux (c :: cur) rest

/-- `str.splitlines(keepends=True)`. -/
def splitlinesKeepends (s : List Nat) : List (List Nat) := splitAux [] s

/-- Strip one trailing line terminator (two characters for `\r\n`). -/
def removeEol (l : List Nat) : List Nat :=
  match l.reverse with
  | [] => l
  | c :: rest =>
    if c = 10 then
      if rest.head? = some 13 then l.dropLast.dropLast else l.dropLast
    else if isLineBreak c then l.dropLast else l

/-- `str.splitlines()` (terminators removed). -/
def splitlinesNoKeep (s : List Nat) : List (List Nat) :=
  (splitlinesKeepends s).map removeEol

/-- Inner cumulative pass of `_build_lines_offset_mapping`. -/
def linesAcc (acc : Int) : List (List Nat) → List Int
  | [] => []
  | d :: ds => (acc + d.length) :: linesAcc (acc + d.length) ds

/-- `line_start_offsets[-1] += 1`. -/
def bumpLast : List Int → List Int
  | [] => []
  | [x] => [x + 1]
  | x :: rest => x :: bumpLast rest

/-- `BytesToUnicodeConverter._build_lines_offset_mapping`: `[0]` extended
with the cumulative line lengths, the last entry then incremented by one
(the sentinel one past the final offset); empty content gives the empty
array. -/
def buildLinesOffsetMapping (s : List Nat) : List Int :=
  if s.isEmpty then []
  else bumpLast (0 :: linesAcc 0 (splitlinesKeepends s))

/-- `BytesToUnicodeConverter._get_position`:
`line_num = numpy.argmax(self._lines_offset > offset) - 1`,
`col = offset - self._lines_offset[line_num]`,
`line = self._lines[line_num]`; when `len(line) == col` and
`line.splitlines()[0] != line` (the line ends with a terminator) move to
column 0 of the next line; emit everything 1-based. -/
def getPosition (s : List Nat) (offset : Int) : Option Position :=
  let linesOffset := buildLinesOffsetMapping s
  let lines := splitlinesKeepends s
  if linesOffset.isEmpty then none
  else
    let lineNum : Int :=
      (pyArgmax (linesOffset.map (fun t => decide (t > offset))) : Int) - 1
    (pyGet linesOffset lineNum).bind fun ls =>
      let col := offset - ls
      (pyGet lines lineNum).bind fun line =>
        if (line.length : Int) = col then
          ((splitlinesNoKeep line).head?).bind fun l0 =>
            if l0 ≠ line then some ⟨offset, (lineNum + 1) + 1, 0 + 1⟩
            else some ⟨offset, lineNum + 1, col + 1⟩
        else some ⟨offset, lineNum + 1, col + 1⟩

/-- The per-position step of `convert_uast`: a position whose `offset`,
`col` and `line` are all zero is skipped (`continue`); otherwise its
`offset` is sent through the byte-offset table (`KeyError` → `none`) and
the result through `_get_position`, all three fields being overwritten. -/
def convertPosition (tbl : List (Nat × Nat)) (strContent : List Nat)
    (p : Position) : Option Position :=
  if p.offset = 0 && p.col = 0 && p.line = 0 then some p
  else
    (tblLookupI tbl p.offset).bind fun strOff =>
      getPosition strContent (strOff : Int)

/-- Rewrite one node's start then end position; children untouched. -/
def rewriteNodeData (tbl : List (Nat × Nat)) (strContent : List Nat)
    (nd : NodeData) : Option NodeData :=
  (convertPosition tbl strContent nd.startPosition).bind fun sp =>
    (convertPosition tbl strContent nd.endPosition).map fun ep =>
      ⟨sp, ep, nd.children⟩

/-- `bblfsh.Node.FromString(node.SerializeToString())`: a deep structural
copy of the whole stored tree into fresh cells, appended after the
existing heap; child pointers are shifted accordingly. -/
def deepCopyHeap (h : Heap) : Heap :=
  h.map fun nd => { nd with children := nd.children.map (· + h.length) }

/-- The `for node in self._traverse_uast(uast)` loop: breadth-first
traversal (`stack.pop(0)`; `stack.extend(node.children)`) that rewrites
each visited node's positions in place.  The fuel argument only bounds the
number of iterations; callers supply at least the number of reachable
nodes. -/
def rewriteBFS (tbl : List (Nat × Nat)) (strContent : List Nat) :
    Nat → Heap → List Nat → Option Heap
  | _, h, [] => some h
  | 0, _, _ :: _ => none
  | fuel + 1, h, i :: queue =>
    match h.get? i with
    | none => none
    | some nd =>
      match rewriteNodeData tbl strContent nd with
      | none => none
      | some nd2 => rewriteBFS tbl strContent fuel (h.set i nd2) (queue ++ nd.children)

/-- `BytesToUnicodeConverter.convert_uast` over the heap `h` with the
input tree rooted at index `root`: deep-copy the tree, return the copy
untouched when the content is empty, otherwise rewrite every copied
node's positions.  The returned pair is the heap after the call and the
index of the returned (copied) root. -/
def convertUast (content : List Nat) (h : Heap) (root : Nat) :
    Option (Heap × Nat) :=
  let h1 := h ++ deepCopyHeap h
  let newRoot := root + h.length
  if content.isEmpty then some (h1, newRoot)
  else
    (rewriteBFS (buildBytesToStrOffsetMapping content)
        (utf8DecodeReplace content) h1.length h1 [newRoot]).map
      fun h2 => (h2, newRoot)

/-- Shift every child pointer of a heap segment by `d`. -/
def shiftHeap (d : Nat) (h : Heap) : Heap :=
  h.map fun nd => { nd with children := nd.children.map (· + d) }

mutual

/-- Number of nodes of a pure tree. -/
def sizeU : UNode → Nat
  | UNode.mk _ _ cs => sizeL cs + 1

/-- Number of nodes of a forest. -/
def sizeL : List UNode → Nat
  | [] => 0
  | t :: ts => sizeU t + sizeL ts

end

/-- Root indices of the subtrees of a flattened forest (each subtree's
root is stored last in its block). -/
def rootsOf : List UNode → List Nat
  | [] => []
  | t :: ts => (sizeU t - 1) :: (rootsOf ts).map (· + sizeU t)

mutual

/-- Flatten a tree into a heap block (children blocks first, root cell
last, child pointers block-relative). -/
def flat : UNode → Heap
  | UNode.mk sp ep cs => flatL cs ++ [⟨sp, ep, rootsOf cs⟩]

/-- Flatten a forest into consecutive blocks. -/
def flatL : List UNode → Heap
  | [] => []
  | t :: ts => flat t ++ shiftHeap (sizeU t) (flatL ts)

end

/-!
## Concrete inputs used by the evaluation theorems
-/

/-- A parse tree whose every position is the all-zero sentinel. -/
def zeroTree : UNode := UNode.mk ⟨0, 0, 0⟩ ⟨0, 0, 0⟩ []

/-- The batch record for document `b"ab"`. -/
def exFile1 : File := ⟨"a.py", [97, 98], zeroTree, "Python"⟩

/-- The batch record for document `b"cde"`. -/
def exFile2 : File := ⟨"b.go", [99, 100, 101], zeroTree, "Go"⟩

/-- C1.  For the batch `[b"ab", b"cde"]` the span table
`get_docs_range()` returns only `[(0, 2)]` — one pair, not one per
document: `self._doc_start_offset` holds the start offsets `[0, 2]`
without a total-length sentinel, so `zip(offsets, offsets[1:])` drops the
last document's span, contradicting the claimed
`document_spans() == [(0, 2), (2, 5)]`. -/
theorem c1_document_spans_missing_last :
    getDocsRange [[97, 98], [99, 100, 101]] = [(0, 2)] ∧
    getDocsRange [[97, 98], [99, 100, 101]] ≠ [(0, 2), (2, 5)] := by
  decide

/-- C2.  `from_files` does not add three annotations per document: for a
one-document batch both indices stay empty, and for the two-document
batch `[b"ab", b"cde"]` only the first document's span `(0, 2)` receives
its Path/UASTNode/Language annotations — the zip with the truncated span
table of `get_docs_range()` silently drops the last file. -/
theorem c2_from_files_drops_last_file :
    (fromFiles [exFile1]).rangeToAnnots = [] ∧
    (fromFiles [exFile1]).typeToAnnots = [] ∧
    (fromFiles [exFile1, exFile2]).typeToAnnots =
      [("path", [((0, 2), pathAnnot 0 2 "a.py")]),
       ("uast_node", [((0, 2), uastNodeAnnot 0 2 zeroTree)]),
       ("language", [((0, 2), languageAnnot 0 2 "Python")])] :=
  ⟨rfl, rfl, rfl⟩

/-- C3, counterexample.  The two bytes `0xE2 0x82` (a truncated prefix of
the three-byte encoding of "€") can not be decoded as part of any valid
character, yet Python's `errors="replace"` decoding substitutes the whole
maximal subpart by a *single* U+FFFD: a run of K = 2 invalid bytes yields
1 placeholder code point, not K.  Moreover a literal U+FFFD character in
the input (3 bytes `EF BF BD`, one code point) is given contribution 1 by
the loop, so its table maps byte offset 1 — the middle of the character —
to codepoint 1, and only the final boundary entry maps 3 to 1: the
codepoint contribution is not always the encoded byte length of the
decoded character. -/
theorem c3_truncated_sequence_one_placeholder :
    utf8DecodeReplace [0xE2, 0x82] = [fffd] ∧
    (utf8DecodeReplace [0xE2, 0x82]).length ≠ 2 ∧
    buildBytesToStrOffsetMapping [0xEF, 0xBF, 0xBD] = [(0, 0), (1, 1), (3, 1)] := by
  decide

/-!
## Helper lemmas: cumulative sums, argmax, prefix lengths
-/

theorem cumsumFrom_eq (l : List Int) (acc : Int) :
    cumsumFrom acc l =
      (List.range l.length).map (fun i => acc + (l.take (i + 1)).sum) := by
  induction l generalizing acc with
  | nil => simp [cumsumFrom]
  | cons x xs ih =>
    simp only [cumsumFrom, List.length_cons, List.range_succ_eq_map,
      List.map_cons, List.map_map, ih (acc + x)]
    congr 1
    · simp
    · apply List.map_congr_left
      intro i _
      simp [Function.comp, List.take_succ_cons, add_assoc]

theorem prefixLen_mono (docs : List (List Nat)) {i j : Nat} (h : i ≤ j) :
    prefixLen docs i ≤ prefixLen docs j := by
  unfold prefixLen
  have hj : j = i + (j - i) := by omega
  rw [hj, List.take_add, List.map_append, List.sum_append]
  have hnn : 0 ≤ (List.map (fun x => (x.length : Int))
      (List.take (j - i) (List.drop i docs))).sum := by
    apply List.sum_nonneg
    intro x hx
    obtain ⟨y, _, rfl⟩ := List.mem_map.mp hx
    positivity
  omega

theorem prefixLen_succ (docs : List (List Nat)) (d : Nat) (hd : d < docs.length) :
    prefixLen docs (d + 1) =
      prefixLen docs d + ((docs.getD d []).length : Int) := by
  unfold prefixLen
  rw [List.take_succ, List.map_append, List.sum_append]
  congr 1
  rw [List.getElem?_eq_getElem hd]
  simp [List.getD_eq_getElem?_getD, List.getElem?_eq_getElem hd]

theorem docStartOffset_eq (docs : List (List Nat)) (h : docs ≠ []) :
    docStartOffset docs =
      (List.range docs.length).map (fun i => prefixLen docs i) := by
  unfold docStartOffset docLens cumsum
  rw [cumsumFrom_eq]
  have hlen : (0 :: docs.dropLast.map fun d => (d.length : Int)).length =
      docs.length := by
    have : docs.length ≠ 0 := by simpa [List.length_eq_zero] using h
    simp [List.length_dropLast]
    omega
  rw [hlen]
  apply List.map_congr_left
  intro i hi
  rw [List.mem_range] at hi
  simp only [List.take_succ_cons, List.sum_cons]
  rw [List.dropLast_eq_take, ← List.map_take, List.take_take]
  have : min i (docs.length - 1) = i := by omega
  rw [this]
  unfold prefixLen
  omega

theorem pyArgmax_eq_of (l : List Bool) (m : Nat) (hm : m < l.length)
    (htrue : l[m] = true)
    (hfalse : ∀ j (hj : j < l.length), j < m → l[j] = false) :
    pyArgmax l = m := by
  unfold pyArgmax
  have hmem : true ∈ l := by
    rw [← htrue]; exact List.get_mem l m hm
  rw [if_pos (by simpa using hmem)]
  apply (List.findIdx_eq hm).mpr
  refine ⟨by simpa using htrue, ?_⟩
  intro j hj
  simpa using hfalse j (Nat.lt_trans hj hm) hj

theorem pyArgmax_all_false (l : List Bool) (h : ∀ x ∈ l, x = false) :
    pyArgmax l = 0 := by
  unfold pyArgmax
  rw [if_neg]
  intro hc
  have : true ∈ l := by simpa using hc
  exact Bool.true_eq_false.mp (h true this)

theorem pyGet_enc (l : List α) (d : Nat) (hd : d < l.length) :
    pyGet l (if d + 1 < l.length then (d : Int) else -1) = l.get? d := by
  split
  · unfold pyGet
    rw [if_pos (by positivity)]
    simp
  · have hlast : l.length = d + 1 := by omega
    unfold pyGet
    rw [if_neg (by omega)]
    rw [if_pos (by rw [hlast]; omega)]
    congr 1
    rw [hlast]
    omega

/-- Resolution lemma: for an offset `k` owned by document `d`
(`prefix(d) ≤ k`, and every later document starts after `k`),
`_offset_to_doc_index` returns the index `d` — encoded as `-1` when `d`
is the last document — together with the local offset `k - prefix(d)`. -/
theorem offsetToDocIndex_owner (docs : List (List Nat)) (k : Int) (d : Nat)
    (hd : d < docs.length)
    (h1 : prefixLen docs d ≤ k)
    (h2 : ∀ j, j < docs.length → d < j → k < prefixLen docs j) :
    offsetToDocIndex docs k =
      some (if d + 1 < docs.length then (d : Int) else -1,
            k - prefixLen docs d) := by
  have hne : docs ≠ [] := by
    intro hcon; subst hcon; simp at hd
  unfold offsetToDocIndex
  rw [docStartOffset_eq docs hne]
  rw [if_neg (by simp [List.isEmpty_iff]; intro hcon; simp [hcon] at hd)]
  by_cases hcase : d + 1 < docs.length
  · have harg : pyArgmax (((List.range docs.length).map
        (fun i => prefixLen docs i)).map (fun s => decide (s > k))) = d + 1 := by
      refine pyArgmax_eq_of _ _ ?_ ?_ ?_
      · simp only [List.length_map, List.length_range]
        exact hcase
      · simp only [List.getElem_map, List.getElem_range]
        simpa using h2 (d + 1) hcase (by omega)
      · intro j hj hjd
        simp only [List.getElem_map, List.getElem_range]
        simp only [decide_eq_false_iff_not, not_lt]
        exact le_trans (prefixLen_mono docs (by omega)) h1
    rw [harg]
    have hcast : (((d + 1 : Nat) : Int)) - 1 = (d : Int) := by push_cast; ring
    rw [hcast]
    rw [if_pos hcase]
    have hpy : pyGet ((List.range docs.length).map fun i => prefixLen docs i)
        (d : Int) = some (prefixLen docs d) := by
      unfold pyGet
      rw [if_pos (by positivity)]
      simp [List.getElem?_eq_getElem, hd]
    simp only [hpy]
  · have hdlast : docs.length = d + 1 := by omega
    have harg : pyArgmax (((List.range docs.length).map
        (fun i => prefixLen docs i)).map (fun s => decide (s > k))) = 0 := by
      apply pyArgmax_all_false
      intro x hx
      simp only [List.map_map, List.mem_map, List.mem_range] at hx
      obtain ⟨i, hi, rfl⟩ := hx
      simp only [Function.comp_apply, decide_eq_false_iff_not, not_lt]
      exact le_trans (prefixLen_mono docs (by omega)) h1
    rw [harg]
    rw [if_neg hcase]
    have hpy : pyGet ((List.range docs.length).map fun i => prefixLen docs i)
        (((0 : Nat) : Int) - 1) = some (prefixLen docs d) := by
      unfold pyGet
      rw [if_neg (by omega)]
      rw [if_pos (by simp only [List.length_map, List.length_range]; omega)]
      simp only [List.length_map, List.length_range]
      have hidx : (((0 : Nat) : Int) - 1 + docs.length).toNat = d := by omega
      rw [hidx]
      simp [List.getElem?_eq_getElem, hd]
    simp only [hpy]
    norm_num

/-- Local-slice form of Python slicing when both bounds are in range. -/
theorem pySlice_of_bounds (l : List α) (a b : Int) (ha0 : 0 ≤ a)
    (hal : a ≤ l.length) (hb0 : 0 ≤ b) (hbl : b ≤ l.length) :
    pySlice l a b = (l.take b.toNat).drop a.toNat := by
  unfold pySlice pySliceIdx
  rw [if_neg (by omega), if_neg (by omega)]
  have h1 : min b.toNat l.length = b.toNat := by omega
  have h2 : min a.toNat l.length = a.toNat := by omega
  rw [h1, h2]

/-- C4.  For a buffer over `docs` and a global offset `k` inside the span
of document `d` (that is, `prefix(d) ≤ k < prefix(d) + len(docs[d])`,
which also makes `d` the greatest document start `≤ k`), `get(k)` returns
exactly the owning document's byte at local offset `k - prefix(d)`. -/
theorem c4_get_returns_owning_document_byte (docs : List (List Nat))
    (k : Int) (d : Nat) (hd : d < docs.length)
    (h1 : prefixLen docs d ≤ k)
    (h2 : k < prefixLen docs d + ((docs.getD d []).length : Int)) :
    rawGetItemInt docs k =
      (docs.getD d []).get? (k - prefixLen docs d).toNat ∧
    ((docs.getD d []).get? (k - prefixLen docs d).toNat).isSome := by
  have hmono : ∀ j, j < docs.length → d < j → k < prefixLen docs j := by
    intro j hj hdj
    have hstep : prefixLen docs (d + 1) =
        prefixLen docs d + ((docs.getD d []).length : Int) :=
      prefixLen_succ docs d hd
    calc k < prefixLen docs (d + 1) := by omega
    _ ≤ prefixLen docs j := prefixLen_mono docs (by omega)
  have hres := offsetToDocIndex_owner docs k d hd h1 hmono
  unfold rawGetItemInt
  rw [hres]
  have hdoc : pyGet docs (if d + 1 < docs.length then (d : Int) else -1) =
      some (docs.getD d []) := by
    rw [pyGet_enc docs d hd]
    simp [List.getElem?_eq_getElem, hd]
  simp only [Option.some_bind, hdoc]
  have hloc0 : 0 ≤ k - prefixLen docs d := by omega
  have hlocl : (k - prefixLen docs d).toNat < (docs.getD d []).length := by
    omega
  constructor
  · unfold pyGet
    rw [if_pos hloc0]
  · rw [List.get?_eq_getElem?, List.getElem?_eq_getElem hlocl]
    rfl

/-- C4 witness: in the buffer `[b"ab", b"cde"]` offset 2 is owned by
document 1 and `get(2)` is byte `c` (= 99), the owning document's byte at
local offset 0. -/
theorem c4_witness :
    rawGetItemInt [[97, 98], [99, 100, 101]] 2 =
      ([[97, 98], [99, 100, 101]].getD 1 []).get?
        ((2 : Int) - prefixLen [[97, 98], [99, 100, 101]] 1).toNat ∧
    (([[97, 98], [99, 100, 101]].getD 1 []).get?
        ((2 : Int) - prefixLen [[97, 98], [99, 100, 101]] 1).toNat).isSome :=
  c4_get_returns_owning_document_byte [[97, 98], [99, 100, 101]] 2 1
    (by decide) (by decide) (by decide)

/-- C5.  `get_range(start, stop)` with the two endpoint bytes `start` and
`stop - 1` owned by documents `d1` and `d2`: when `d1 ≠ d2` it raises
`RangeSpansDocumentsError`, and when the range lies in the single document
`d1 = d2` it returns that document's local byte slice `[start, stop)` —
in particular a successful result never spans two documents. -/
theorem c5_get_range_single_document (docs : List (List Nat))
    (start stop : Int) (d1 d2 : Nat)
    (hd1 : d1 < docs.length)
    (hs1 : prefixLen docs d1 ≤ start)
    (hs2 : start < prefixLen docs d1 + ((docs.getD d1 []).length : Int))
    (hd2 : d2 < docs.length)
    (ht1 : prefixLen docs d2 ≤ stop - 1)
    (ht2 : stop - 1 < prefixLen docs d2 + ((docs.getD d2 []).length : Int)) :
    (d1 ≠ d2 → getRangeRD docs start stop = some (Except.error ())) ∧
    (d1 = d2 → getRangeRD docs start stop =
      some (Except.ok (((docs.getD d1 []).take
        (stop - prefixLen docs d1).toNat).drop
        (start - prefixLen docs d1).toNat))) := by
  have hmono1 : ∀ j, j < docs.length → d1 < j → start < prefixLen docs j := by
    intro j hj hdj
    have hstep := prefixLen_succ docs d1 hd1
    calc start < prefixLen docs (d1 + 1) := by omega
    _ ≤ prefixLen docs j := prefixLen_mono docs (by omega)
  have hmono2 : ∀ j, j < docs.length → d2 < j →
      stop - 1 < prefixLen docs j := by
    intro j hj hdj
    have hstep := prefixLen_succ docs d2 hd2
    calc stop - 1 < prefixLen docs (d2 + 1) := by omega
    _ ≤ prefixLen docs j := prefixLen_mono docs (by omega)
  have hres1 := offsetToDocIndex_owner docs start d1 hd1 hs1 hmono1
  have hres2 := offsetToDocIndex_owner docs (stop - 1) d2 hd2 ht1 hmono2
  unfold getRangeRD
  rw [hres1, hres2]
  simp only [Option.some_bind]
  constructor
  · intro hne
    rw [if_pos]
    split <;> split <;> simp_all
    omega
  · intro heq
    subst heq
    rw [if_neg (by simp)]
    have hdoc : pyGet docs (if d1 + 1 < docs.length then (d1 : Int) else -1) =
        some (docs.getD d1 []) := by
      rw [pyGet_enc docs d1 hd1]
      simp [List.getElem?_eq_getElem, hd1]
    rw [hdoc]
    simp only [Option.map_some']
    congr 2
    have harith : stop - 1 - prefixLen docs d1 + 1 = stop - prefixLen docs d1 := by
      ring
    rw [harith]
    apply pySlice_of_bounds
    · omega
    · omega
    · omega
    · omega

/-- C5 witness: in `[b"ab", b"cde"]` the range `(1, 3)` crosses the
document boundary and fails, while `(2, 5)` lies inside document 1 and
returns `b"cde"`. -/
theorem c5_witness :
    ((0 : Nat) ≠ (1 : Nat) →
      getRangeRD [[97, 98], [99, 100, 101]] 1 3 = some (Except.error ())) ∧
    ((0 : Nat) = (1 : Nat) →
      getRangeRD [[97, 98], [99, 100, 101]] 1 3 =
        some (Except.ok ((([[97, 98], [99, 100, 101]].getD 0 []).take
          ((3 : Int) - prefixLen [[97, 98], [99, 100, 101]] 0).toNat).drop
          ((1 : Int) - prefixLen [[97, 98], [99, 100, 101]] 0).toNat))) :=
  c5_get_range_single_document [[97, 98], [99, 100, 101]] 1 3 0 1
    (by decide) (by decide) (by decide) (by decide) (by decide) (by decide)

/-!
## Helper lemmas: dict updates and the two store indices
-/

theorem alookup_pdSet [DecidableEq κ] (l : List (κ × α)) (k k2 : κ) (v : α) :
    alookup k2 (pdSet k v l) = if k2 = k then some v else alookup k2 l := by
  induction l with
  | nil =>
    by_cases h : k = k2
    · simp [pdSet, alookup, h]
    · simp [pdSet, alookup, h, Ne.symm h]
  | cons p rest ih =>
    obtain ⟨k0, v0⟩ := p
    simp only [pdSet]
    by_cases h0 : k0 = k
    · subst h0
      rw [if_pos rfl]
      by_cases h2 : k0 = k2
      · subst h2
        simp [alookup]
      · simp [alookup, h2, Ne.symm h2]
    · rw [if_neg h0]
      by_cases h2 : k0 = k2
      · subst h2
        simp [alookup, h0]
      · simp [alookup, h2, ih]

theorem alookup_sdSet (l : List ((Int × Int) × α)) (k k2 : Int × Int) (v : α) :
    alookup k2 (sdSet k v l) = if k2 = k then some v else alookup k2 l := by
  induction l with
  | nil =>
    by_cases h : k = k2
    · simp [sdSet, alookup, h]
    · simp [sdSet, alookup, h, Ne.symm h]
  | cons p rest ih =>
    obtain ⟨k0, v0⟩ := p
    simp only [sdSet]
    by_cases h0 : k0 = k
    · subst h0
      rw [if_pos rfl]
      by_cases h2 : k0 = k2
      · subst h2
        simp [alookup]
      · simp [alookup, h2, Ne.symm h2]
    · rw [if_neg h0]
      by_cases hlt : rangeLt k k0
      · rw [if_pos hlt]
        by_cases h2 : k = k2
        · subst h2
          simp [alookup, Ne.symm h0]
        · by_cases h3 : k0 = k2
          · subst h3
            simp [alookup, h2, Ne.symm h2]
          · simp [alookup, h2, h3, Ne.symm h2]
      · rw [if_neg hlt]
        by_cases h2 : k0 = k2
        · subst h2
          simp [alookup, h0]
        · simp [alookup, h2, ih]

theorem alookup_updateAt [DecidableEq κ] (l : List (κ × α)) (k k2 : κ)
    (f : α → α) :
    alookup k2 (updateAt k f l) =
      if k2 = k then (alookup k l).map f else alookup k2 l := by
  induction l with
  | nil =>
    by_cases h : k2 = k <;> simp [updateAt, alookup, h]
  | cons p rest ih =>
    obtain ⟨k0, v0⟩ := p
    simp only [updateAt]
    by_cases h0 : k0 = k
    · subst h0
      rw [if_pos rfl]
      by_cases h2 : k0 = k2
      · subst h2
        simp [alookup]
      · simp [alookup, h2, Ne.symm h2]
    · rw [if_neg h0]
      by_cases h2 : k0 = k2
      · subst h2
        simp [alookup, h0, Ne.symm h0]
      · simp [alookup, h2, h0, ih]

/-- Range-index lookup: `self._range_to_annotations[range][name]`. -/
def rangeIndexLookup (st : AnnotatedData) (r : Int × Int) (n : String) :
    Option Annot :=
  (alookup r st.rangeToAnnots).bind fun m => alookup n m

/-- Type-index lookup: `self._type_to_annotations[name][range]`. -/
def typeIndexLookup (st : AnnotatedData) (n : String) (r : Int × Int) :
    Option Annot :=
  (alookup n st.typeToAnnots).bind fun m => alookup r m

theorem rangeIndexLookup_add (st : AnnotatedData) (a : Annot)
    (r : Int × Int) (n : String) :
    rangeIndexLookup (addAnnot st a) r n =
      if r = a.range ∧ n = a.name then some a
      else rangeIndexLookup st r n := by
  unfold rangeIndexLookup addAnnot
  simp only [alookup_updateAt]
  have hbase : alookup a.range
      (if (alookup a.range st.rangeToAnnots).isSome then st.rangeToAnnots
       else sdSet a.range [] st.rangeToAnnots) =
      some ((alookup a.range st.rangeToAnnots).getD []) := by
    by_cases hp : (alookup a.range st.rangeToAnnots).isSome
    · obtain ⟨m, hm⟩ := Option.isSome_iff_exists.mp hp
      simp [hp, hm]
    · rw [Option.not_isSome_iff_eq_none] at hp
      simp only [hp, Option.isSome_none, Bool.false_eq_true, if_false]
      rw [alookup_sdSet, if_pos rfl]
      simp [hp]
  by_cases hr : r = a.range
  · subst hr
    rw [if_pos rfl, hbase]
    simp only [Option.map_some', Option.some_bind, alookup_pdSet]
    by_cases hn : n = a.name
    · simp [hn]
    · rw [if_neg hn]
      rw [if_neg (show ¬(True ∧ n = a.name) from fun hc => hn hc.2)]
      cases hopt : alookup a.range st.rangeToAnnots <;> simp [hopt, alookup]
  · rw [if_neg hr, if_neg (show ¬(r = a.range ∧ n = a.name) from fun hc => hr hc.1)]
    by_cases hp : (alookup a.range st.rangeToAnnots).isSome
    · simp [hp]
    · simp only [hp, Bool.false_eq_true, if_false]
      rw [alookup_sdSet, if_neg hr]

theorem typeIndexLookup_add (st : AnnotatedData) (a : Annot)
    (n : String) (r : Int × Int) :
    typeIndexLookup (addAnnot st a) n r =
      if n = a.name ∧ r = a.range then some a
      else typeIndexLookup st n r := by
  unfold typeIndexLookup addAnnot
  simp only [alookup_updateAt]
  have hbase : alookup a.name
      (if (alookup a.name st.typeToAnnots).isSome then st.typeToAnnots
       else pdSet a.name [] st.typeToAnnots) =
      some ((alookup a.name st.typeToAnnots).getD []) := by
    by_cases hp : (alookup a.name st.typeToAnnots).isSome
    · obtain ⟨m, hm⟩ := Option.isSome_iff_exists.mp hp
      simp [hp, hm]
    · rw [Option.not_isSome_iff_eq_none] at hp
      simp only [hp, Option.isSome_none, Bool.false_eq_true, if_false]
      rw [alookup_pdSet, if_pos rfl]
      simp [hp]
  by_cases hn : n = a.name
  · subst hn
    rw [if_pos rfl, hbase]
    simp only [Option.map_some', Option.some_bind, alookup_sdSet]
    by_cases hr : r = a.range
    · simp [hr]
    · rw [if_neg hr]
      rw [if_neg (show ¬(True ∧ r = a.range) from fun hc => hr hc.2)]
      cases hopt : alookup a.name st.typeToAnnots <;> simp [hopt, alookup]
  · rw [if_neg hn, if_neg (show ¬(n = a.name ∧ r = a.range) from fun hc => hn hc.1)]
    by_cases hp : (alookup a.name st.typeToAnnots).isSome
    · simp [hp]
    · simp only [hp, Bool.false_eq_true, if_false]
      rw [alookup_pdSet, if_neg hn]

theorem rangeLt_iff (a b : Int × Int) :
    rangeLt a b = true ↔ (a.1 < b.1 ∨ (a.1 = b.1 ∧ a.2 < b.2)) := by
  simp [rangeLt]

theorem rangeLt_trans {a b c : Int × Int} (h1 : rangeLt a b = true)
    (h2 : rangeLt b c = true) : rangeLt a c = true := by
  rw [rangeLt_iff] at *
  omega

theorem rangeLt_of_ne_of_not_lt {a b : Int × Int} (hne : ¬ a = b)
    (hnlt : ¬ rangeLt a b = true) : rangeLt b a = true := by
  rw [rangeLt_iff] at *
  rw [Prod.ext_iff] at hne
  push_neg at *
  omega

theorem mem_pdSet [DecidableEq κ] {l : List (κ × α)} {k : κ} {v : α}
    {p : κ × α} (h : p ∈ pdSet k v l) : p = (k, v) ∨ p ∈ l := by
  induction l with
  | nil => simpa [pdSet] using h
  | cons q rest ih =>
    obtain ⟨k0, v0⟩ := q
    by_cases h0 : k0 = k
    · subst h0
      simp only [pdSet, if_pos rfl] at h
      cases h with
      | head => left; rfl
      | tail _ h2 => right; exact List.mem_cons_of_mem _ h2
    · simp only [pdSet, if_neg h0] at h
      cases h with
      | head => right; exact List.mem_cons_self _ _
      | tail _ h2 =>
        rcases ih h2 with h3 | h3
        · left; exact h3
        · right; exact List.mem_cons_of_mem _ h3

theorem mem_sdSet {l : List ((Int × Int) × α)} {k : Int × Int} {v : α}
    {p : (Int × Int) × α} (h : p ∈ sdSet k v l) : p = (k, v) ∨ p ∈ l := by
  induction l with
  | nil => simpa [sdSet] using h
  | cons q rest ih =>
    obtain ⟨k0, v0⟩ := q
    by_cases h0 : k0 = k
    · subst h0
      simp only [sdSet, if_pos rfl] at h
      cases h with
      | head => left; rfl
      | tail _ h2 => right; exact List.mem_cons_of_mem _ h2
    · simp only [sdSet, if_neg h0] at h
      by_cases hlt : rangeLt k k0
      · rw [if_pos hlt] at h
        cases h with
        | head => left; rfl
        | tail _ h2 =>
          cases h2 with
          | head => right; exact List.mem_cons_self _ _
          | tail _ h3 => right; exact List.mem_cons_of_mem _ h3
      · rw [if_neg hlt] at h
        cases h with
        | head => right; exact List.mem_cons_self _ _
        | tail _ h2 =>
          rcases ih h2 with h3 | h3
          · left; exact h3
          · right; exact List.mem_cons_of_mem _ h3

theorem mem_updateAt [DecidableEq κ] {l : List (κ × α)} {k : κ} {f : α → α}
    {p : κ × α} (h : p ∈ updateAt k f l) :
    p ∈ l ∨ ∃ v, (k, v) ∈ l ∧ p = (k, f v) := by
  induction l with
  | nil => simp [updateAt] at h
  | cons q rest ih =>
    obtain ⟨k0, v0⟩ := q
    by_cases h0 : k0 = k
    · subst h0
      simp only [updateAt, if_pos rfl] at h
      cases h with
      | head => right; exact ⟨v0, List.mem_cons_self _ _, rfl⟩
      | tail _ h2 => left; exact List.mem_cons_of_mem _ h2
    · simp only [updateAt, if_neg h0] at h
      cases h with
      | head => left; exact List.mem_cons_self _ _
      | tail _ h2 =>
        rcases ih h2 with h3 | ⟨v2, hv2, hp⟩
        · left; exact List.mem_cons_of_mem _ h3
        · right; exact ⟨v2, List.mem_cons_of_mem _ hv2, hp⟩

/-- Ascending (strict lexicographic) key order of a `SortedDict`'s
association list. -/
def rangeKeysSorted (l : List ((Int × Int) × α)) : Prop :=
  l.Pairwise (fun p q => rangeLt p.1 q.1 = true)

theorem sdSet_sorted {l : List ((Int × Int) × α)} {k : Int × Int} {v : α}
    (h : rangeKeysSorted l) : rangeKeysSorted (sdSet k v l) := by
  induction l with
  | nil => simp [sdSet, rangeKeysSorted]
  | cons q rest ih =>
    obtain ⟨k0, v0⟩ := q
    unfold rangeKeysSorted at h
    rw [List.pairwise_cons] at h
    obtain ⟨hhead, hrest⟩ := h
    by_cases h0 : k0 = k
    · subst h0
      unfold rangeKeysSorted
      simp only [sdSet, if_true]
      rw [List.pairwise_cons]
      exact ⟨hhead, hrest⟩
    · unfold rangeKeysSorted
      simp only [sdSet]
      rw [if_neg h0]
      by_cases hlt : rangeLt k k0
      · rw [if_pos hlt]
        rw [List.pairwise_cons]
        constructor
        · intro q hq
          rcases List.mem_cons.mp hq with rfl | hmem
          · exact hlt
          · exact rangeLt_trans hlt (hhead q hmem)
        · rw [List.pairwise_cons]
          exact ⟨hhead, hrest⟩
      · rw [if_neg hlt]
        rw [List.pairwise_cons]
        constructor
        · intro q hq
          rcases mem_sdSet hq with rfl | hmem
          · exact rangeLt_of_ne_of_not_lt (fun hc => h0 hc.symm) hlt
          · exact hhead q hmem
        · exact ih hrest

theorem updateAt_map_fst [DecidableEq κ] (l : List (κ × α)) (k : κ)
    (f : α → α) : (updateAt k f l).map Prod.fst = l.map Prod.fst := by
  induction l with
  | nil => simp [updateAt]
  | cons q rest ih =>
    obtain ⟨k0, v0⟩ := q
    by_cases h0 : k0 = k
    · subst h0
      simp [updateAt]
    · simp [updateAt, h0, ih]

theorem rangeKeysSorted_iff_map (l : List ((Int × Int) × α)) :
    rangeKeysSorted l ↔
      (l.map Prod.fst).Pairwise (fun x y => rangeLt x y = true) := by
  unfold rangeKeysSorted
  rw [List.pairwise_map]

theorem updateAt_sorted {l : List ((Int × Int) × α)} {k : Int × Int}
    {f : α → α} (h : rangeKeysSorted l) : rangeKeysSorted (updateAt k f l) := by
  rw [rangeKeysSorted_iff_map] at *
  rw [updateAt_map_fst]
  exact h

theorem pdSet_map_fst_nodup [DecidableEq κ] {l : List (κ × α)} {k : κ}
    {v : α} (h : (l.map Prod.fst).Nodup) :
    ((pdSet k v l).map Prod.fst).Nodup := by
  induction l with
  | nil => simp [pdSet]
  | cons q rest ih =>
    obtain ⟨k0, v0⟩ := q
    simp only [List.map_cons, List.nodup_cons] at h
    obtain ⟨hout, hrest⟩ := h
    by_cases h0 : k0 = k
    · subst h0
      simp only [pdSet, if_true, List.map_cons, List.nodup_cons]
      exact ⟨hout, hrest⟩
    · simp only [pdSet, if_neg h0, List.map_cons, List.nodup_cons]
      refine ⟨?_, ih hrest⟩
      intro hc
      obtain ⟨p, hp, hpk⟩ := List.mem_map.mp hc
      rcases mem_pdSet hp with rfl | hp2
      · exact h0 hpk.symm
      · exact hout (List.mem_map.mpr ⟨p, hp2, hpk⟩)

/-- The standing invariant of the dual-index store: the two indices hold
exactly the same `(type, range, annotation)` entries, the range index's
keys are strictly ascending (hence unique), each `AnnotationSet` has
unique type-name keys, the type index has unique type-name keys and each
of its per-type `SortedDict`s has strictly ascending (hence unique) range
keys. -/
def StoreInv (st : AnnotatedData) : Prop :=
  (∀ n r, rangeIndexLookup st r n = typeIndexLookup st n r) ∧
  rangeKeysSorted st.rangeToAnnots ∧
  (∀ p ∈ st.rangeToAnnots, ((p.2.map Prod.fst).Nodup : Prop)) ∧
  (st.typeToAnnots.map Prod.fst).Nodup ∧
  (∀ p ∈ st.typeToAnnots, rangeKeysSorted p.2)

theorem storeInv_init (docs : List (List Nat)) :
    StoreInv (AnnotatedData.init docs) := by
  refine ⟨?_, ?_, ?_, ?_, ?_⟩ <;>
    simp [AnnotatedData.init, rangeIndexLookup, typeIndexLookup, alookup,
      rangeKeysSorted]

theorem storeInv_add {st : AnnotatedData} (h : StoreInv st) (a : Annot) :
    StoreInv (addAnnot st a) := by
  obtain ⟨hcons, hsorted, hinner, htnodup, htsorted⟩ := h
  refine ⟨?_, ?_, ?_, ?_, ?_⟩
  · intro n r
    rw [rangeIndexLookup_add, typeIndexLookup_add]
    by_cases h1 : r = a.range ∧ n = a.name
    · rw [if_pos h1, if_pos ⟨h1.2, h1.1⟩]
    · rw [if_neg h1, if_neg (fun hc => h1 ⟨hc.2, hc.1⟩), hcons n r]
  · show rangeKeysSorted (addAnnot st a).rangeToAnnots
    unfold addAnnot
    dsimp only
    apply updateAt_sorted
    split
    · exact hsorted
    · exact sdSet_sorted hsorted
  · intro p hp
    unfold addAnnot at hp
    dsimp only at hp
    have hbase : ∀ q, q ∈ (if (alookup a.range st.rangeToAnnots).isSome
        then st.rangeToAnnots else sdSet a.range [] st.rangeToAnnots) →
        ((q.2.map Prod.fst).Nodup : Prop) := by
      intro q hq
      split at hq
      · exact hinner q hq
      · rcases mem_sdSet hq with rfl | hq2
        · simp
        · exact hinner q hq2
    rcases mem_updateAt hp with hmem | ⟨m, hm, rfl⟩
    · exact hbase p hmem
    · exact pdSet_map_fst_nodup (hbase (a.range, m) hm)
  · show ((addAnnot st a).typeToAnnots.map Prod.fst).Nodup
    unfold addAnnot
    dsimp only
    rw [updateAt_map_fst]
    split
    · exact htnodup
    · exact pdSet_map_fst_nodup htnodup
  · intro p hp
    unfold addAnnot at hp
    dsimp only at hp
    have hbase : ∀ q, q ∈ (if (alookup a.name st.typeToAnnots).isSome
        then st.typeToAnnots else pdSet a.name [] st.typeToAnnots) →
        rangeKeysSorted q.2 := by
      intro q hq
      split at hq
      · exact htsorted q hq
      · rcases mem_pdSet hq with rfl | hq2
        · simp [rangeKeysSorted]
        · exact htsorted q hq2
    rcases mem_updateAt hp with hmem | ⟨m, hm, rfl⟩
    · exact hbase p hmem
    · exact sdSet_sorted (hbase (a.name, m) hm)

theorem storeInv_foldl (anns : List Annot) (st : AnnotatedData)
    (h : StoreInv st) : StoreInv (anns.foldl addAnnot st) := by
  induction anns generalizing st with
  | nil => exact h
  | cons a rest ih => exact ih _ (storeInv_add h a)

/-- C6.  After any sequence of `add` calls starting from the empty store:
the store invariant holds — the range index and the type index describe
exactly the same set of `(type, range, annotation)` entries, and every
key level has unique keys, so at most one annotation exists per
`(type, range)` pair — and one more `add` overwrites the `(type, range)`
entry in *both* indices simultaneously (the old annotation is replaced,
every other entry is untouched). -/
theorem c6_dual_index_consistency (docs : List (List Nat))
    (anns : List Annot) :
    StoreInv (anns.foldl addAnnot (AnnotatedData.init docs)) ∧
    (∀ (a : Annot) (r : Int × Int) (n : String),
      rangeIndexLookup
          (addAnnot (anns.foldl addAnnot (AnnotatedData.init docs)) a) r n =
        if r = a.range ∧ n = a.name then some a
        else rangeIndexLookup (anns.foldl addAnnot (AnnotatedData.init docs))
          r n) ∧
    (∀ (a : Annot) (n : String) (r : Int × Int),
      typeIndexLookup
          (addAnnot (anns.foldl addAnnot (AnnotatedData.init docs)) a) n r =
        if n = a.name ∧ r = a.range then some a
        else typeIndexLookup (anns.foldl addAnnot (AnnotatedData.init docs))
          n r) :=
  ⟨storeInv_foldl anns _ (storeInv_init docs),
   fun a r n => rangeIndexLookup_add _ a r n,
   fun a n r => typeIndexLookup_add _ a n r⟩

/-- C10.  `extend` with an annotation whose range already has an
`AnnotationSet` entry but whose type name was never added raises
`KeyError` *after* the range index has been updated: the error state has
the annotation in the range index, an unchanged type index with no entry
for the name — the two indices are left inconsistent, so the failed
mutation is not atomic. -/
theorem c10_extend_unknown_type_not_atomic (st : AnnotatedData) (a : Annot)
    (hrange : (alookup a.range st.rangeToAnnots).isSome = true)
    (hname : alookup a.name st.typeToAnnots = none) :
    extendAnnots st [a] = Except.error
      { st with rangeToAnnots :=
          updateAt a.range (fun m => pdSet a.name a m) st.rangeToAnnots } ∧
    rangeIndexLookup
      { st with rangeToAnnots :=
          updateAt a.range (fun m => pdSet a.name a m) st.rangeToAnnots }
      a.range a.name = some a ∧
    typeIndexLookup
      { st with rangeToAnnots :=
          updateAt a.range (fun m => pdSet a.name a m) st.rangeToAnnots }
      a.name a.range = none ∧
    ({ st with rangeToAnnots :=
        updateAt a.range (fun m => pdSet a.name a m) st.rangeToAnnots } :
      AnnotatedData).typeToAnnots = st.typeToAnnots := by
  obtain ⟨m, hm⟩ := Option.isSome_iff_exists.mp hrange
  refine ⟨?_, ?_, ?_, rfl⟩
  · unfold extendAnnots extendOne
    rw [hm]
    dsimp only
    rw [hname]
  · unfold rangeIndexLookup
    dsimp only
    rw [alookup_updateAt, if_pos rfl, hm]
    simp [alookup_pdSet]
  · unfold typeIndexLookup
    dsimp only
    rw [hname]
    rfl

/-- A concrete store for the C10 witness: one token annotation at range
`(0, 2)` over the single document `b"ab"`. -/
def c10Store : AnnotatedData :=
  addAnnot (AnnotatedData.init [[97, 98]]) (tokenAnnot 0 2)

/-- The annotation the C10 witness extends with: its range `(0, 2)`
exists, its type name `"path"` was never added. -/
def c10Annot : Annot := pathAnnot 0 2 "x"

/-- The store state in which the C10 witness's `extend` call fails: the
range index already updated, the type index untouched. -/
abbrev c10ErrState : AnnotatedData :=
  { c10Store with rangeToAnnots := updateAt c10Annot.range (fun m => pdSet c10Annot.name c10Annot m) c10Store.rangeToAnnots }

/-- C10 witness: the failure and the index inconsistency at the concrete
store. -/
theorem c10_witness :
    extendAnnots c10Store [c10Annot] = Except.error c10ErrState ∧
    rangeIndexLookup c10ErrState c10Annot.range c10Annot.name =
      some c10Annot ∧
    typeIndexLookup c10ErrState c10Annot.name c10Annot.range = none ∧
    c10ErrState.typeToAnnots = c10Store.typeToAnnots :=
  c10_extend_unknown_type_not_atomic c10Store c10Annot rfl rfl

/-!
## Helper lemmas for co-located iteration (C7)
-/

theorem alookup_mem [DecidableEq κ] {l : List (κ × α)} {k : κ} {v : α}
    (h : alookup k l = some v) : (k, v) ∈ l := by
  induction l with
  | nil => simp [alookup] at h
  | cons q rest ih =>
    obtain ⟨k0, v0⟩ := q
    by_cases h0 : k0 = k
    · subst h0
      simp only [alookup, if_true, Option.some.injEq] at h
      subst h
      exact List.mem_cons_self _ _
    · simp only [alookup, if_neg h0] at h
      exact List.mem_cons_of_mem _ (ih h)

theorem alookup_isSome_of_mem [DecidableEq κ] {l : List (κ × α)} {k : κ}
    {v : α} (h : (k, v) ∈ l) : (alookup k l).isSome := by
  induction l with
  | nil => simp at h
  | cons q rest ih =>
    obtain ⟨k0, v0⟩ := q
    by_cases h0 : k0 = k
    · simp [alookup, h0]
    · simp only [alookup, if_neg h0]
      rcases List.mem_cons.mp h with heq | hmem
      · injection heq with h1 h2
        exact absurd h1.symm h0
      · exact ih hmem

/-- Stored annotations agree with the keys under which they are filed:
in the range index the inner name key is the annotation's name and the
outer key its range; in the type index the outer key is the annotation's
name and the inner key its range. -/
def StoreKeysMatch (st : AnnotatedData) : Prop :=
  (∀ p ∈ st.rangeToAnnots, ∀ q ∈ p.2,
    Annot.range (Prod.snd q) = p.1 ∧ Annot.name (Prod.snd q) = q.1) ∧
  (∀ p ∈ st.typeToAnnots, ∀ q ∈ p.2,
    Annot.range (Prod.snd q) = q.1 ∧ Annot.name (Prod.snd q) = p.1)

theorem storeKeysMatch_init (docs : List (List Nat)) :
    StoreKeysMatch (AnnotatedData.init docs) := by
  constructor <;> intro p hp <;> simp [AnnotatedData.init] at hp

theorem storeKeysMatch_add {st : AnnotatedData} (h : StoreKeysMatch st)
    (a : Annot) : StoreKeysMatch (addAnnot st a) := by
  obtain ⟨hr, ht⟩ := h
  constructor
  · intro p hp q hq
    unfold addAnnot at hp
    dsimp only at hp
    rcases mem_updateAt hp with hmem | ⟨m, hm, rfl⟩
    · have hbase : p ∈ st.rangeToAnnots ∨
          p = (a.range, ([] : List (String × Annot))) := by
        split at hmem
        · left; exact hmem
        · rcases mem_sdSet hmem with heq | h2
          · right; exact heq
          · left; exact h2
      rcases hbase with hb | rfl
      · exact hr p hb q hq
      · simp at hq
    · rcases mem_pdSet hq with rfl | hq2
      · exact ⟨rfl, rfl⟩
      · have hbase : (a.range, m) ∈ st.rangeToAnnots ∨ m = [] := by
          split at hm
          · left; exact hm
          · rcases mem_sdSet hm with heq | h2
            · right
              exact (Prod.ext_iff.mp heq).2
            · left; exact h2
        rcases hbase with hb | rfl
        · exact hr _ hb q hq2
        · simp at hq2
  · intro p hp q hq
    unfold addAnnot at hp
    dsimp only at hp
    rcases mem_updateAt hp with hmem | ⟨m, hm, rfl⟩
    · have hbase : p ∈ st.typeToAnnots ∨
          p = (a.name, ([] : List ((Int × Int) × Annot))) := by
        split at hmem
        · left; exact hmem
        · rcases mem_pdSet hmem with heq | h2
          · right; exact heq
          · left; exact h2
      rcases hbase with hb | rfl
      · exact ht p hb q hq
      · simp at hq
    · rcases mem_sdSet hq with rfl | hq2
      · exact ⟨rfl, rfl⟩
      · have hbase : (a.name, m) ∈ st.typeToAnnots ∨ m = [] := by
          split at hm
          · left; exact hm
          · rcases mem_pdSet hm with heq | h2
            · right
              exact (Prod.ext_iff.mp heq).2
            · left; exact h2
        rcases hbase with hb | rfl
        · exact ht _ hb q hq2
        · simp at hq2

theorem storeKeysMatch_foldl (anns : List Annot) (st : AnnotatedData)
    (h : StoreKeysMatch st) : StoreKeysMatch (anns.foldl addAnnot st) := by
  induction anns generalizing st with
  | nil => exact h
  | cons a rest ih => exact ih _ (storeKeysMatch_add h a)

theorem foldl_addAnnot_rawData (anns : List Annot) (st : AnnotatedData) :
    (anns.foldl addAnnot st).rawData = st.rawData := by
  induction anns generalizing st with
  | nil => rfl
  | cons a rest ih => exact ih (addAnnot st a)

/-- Unwrap a successful slice result (callers establish success first). -/
def okSlice : Option (Except Unit (List Nat)) → List Nat
  | some (Except.ok bs) => bs
  | _ => []

theorem iterAnnot_items (docs : List (List Nat)) :
    ∀ (sd : List ((Int × Int) × Annot)),
    (∀ p ∈ sd, ∃ bs, getRangeRD docs p.1.1 p.1.2 = some (Except.ok bs)) →
    (sd.mapM fun ra => (getRangeRD docs ra.1.1 ra.1.2).bind fun e =>
        match e with
        | Except.ok bs => some (bs, ra.2)
        | Except.error _ => none) =
      some (sd.map fun p => (okSlice (getRangeRD docs p.1.1 p.1.2), p.2))
  | [], _ => rfl
  | p :: rest, hslices => by
    obtain ⟨bs, hbs⟩ := hslices p (List.mem_cons_self _ _)
    have ihr := iterAnnot_items docs rest
      (fun q hq => hslices q (List.mem_cons_of_mem _ hq))
    simp only [List.mapM_cons, List.map_cons, hbs, Option.some_bind, ihr,
      okSlice]
    rfl

theorem iterAnnotsAux_eq (st : AnnotatedData) (names : List String) :
    ∀ (items : List (List Nat × Annot)),
    (∀ p ∈ items, (alookup (Annot.range p.2) st.rangeToAnnots).isSome) →
    iterAnnotsAux st names items = some (items.filterMap fun p =>
      if names.all (fun k =>
          (rangeIndexLookup st (Annot.range p.2) k).isSome) then
        some (p.1, mkAnnotSet (Annot.range p.2) (names.map fun k =>
          (k, (rangeIndexLookup st (Annot.range p.2) k).getD p.2)))
      else none)
  | [], _ => rfl
  | (value, ann0) :: rest, hpresent => by
    obtain ⟨m, hm⟩ := Option.isSome_iff_exists.mp
      (hpresent (value, ann0) (List.mem_cons_self _ _))
    have ihr := iterAnnotsAux_eq st names rest
      (fun q hq => hpresent q (List.mem_cons_of_mem _ hq))
    have hri : ∀ k, rangeIndexLookup st (Annot.range ann0) k = alookup k m := by
      intro k
      unfold rangeIndexLookup
      rw [hm]
      rfl
    simp only [iterAnnotsAux, hm, ihr, List.filterMap_cons, hri]
    cases hcond : names.all (fun k => (alookup k m).isSome) <;> simp [hcond]

theorem filterMap_congr_mem {f g : α → Option β} {l : List α}
    (h : ∀ a ∈ l, f a = g a) : l.filterMap f = l.filterMap g := by
  induction l with
  | nil => rfl
  | cons a rest ih =>
    rw [List.filterMap_cons, List.filterMap_cons,
      h a (List.mem_cons_self _ _)]
    have ihr := ih (fun b hb => h b (List.mem_cons_of_mem _ hb))
    cases g a <;> simp [ihr]

theorem pairwise_filterMap_of {S : α → α → Prop} {R : β → β → Prop}
    (f : α → Option β) {l : List α} (h : l.Pairwise S)
    (hf : ∀ a b x y, S a b → f a = some x → f b = some y → R x y) :
    (l.filterMap f).Pairwise R := by
  induction l with
  | nil => simp
  | cons a rest ih =>
    rw [List.pairwise_cons] at h
    obtain ⟨hhead, hrest⟩ := h
    rw [List.filterMap_cons]
    cases hfa : f a with
    | none => exact ih hrest
    | some x =>
      rw [List.pairwise_cons]
      refine ⟨?_, ih hrest⟩
      intro y hy
      obtain ⟨b, hb, hfb⟩ := List.mem_filterMap.mp hy
      exact hf a b x y (hhead b hb) hfa hfb

/-- Specification-side description of one `iter_co_located(names)` pass:
for each range stored under the *first* name (in stored, ascending,
order), keep it exactly when every requested name has an annotation at
that range, and emit the buffer slice together with the `Annotations`
set holding each requested name's annotation. -/
def c7Expected (st : AnnotatedData) (names : List String)
    (sd : List ((Int × Int) × Annot)) : List (List Nat × AnnotSet) :=
  sd.filterMap fun p =>
    if names.all (fun k => (typeIndexLookup st k p.1).isSome) then
      some (okSlice (getRangeRD st.rawData p.1.1 p.1.2),
        mkAnnotSet p.1 (names.map fun k =>
          (k, (typeIndexLookup st k p.1).getD p.2)))
    else none

/-- C7.  On a store reached by `add` calls (`StoreInv`/`StoreKeysMatch`
hold) with `sd` the ranges stored under the first requested name,
`iter_annotations(names)` yields exactly the entries of ranges under the
first name whose co-located annotations cover *all* requested names
(ranges present under a later name only are never visited since the
result is drawn from `sd` alone); the entries appear in the ascending
stored order of the first name's index; and when no range qualifies the
result is an empty yield, not an error. -/
theorem c7_co_located_iteration (st : AnnotatedData) (n0 : String)
    (rest : List String) (sd : List ((Int × Int) × Annot))
    (hinv : StoreInv st) (hkeys : StoreKeysMatch st)
    (hty : alookup n0 st.typeToAnnots = some sd)
    (hslices : ∀ p ∈ sd, ∃ bs,
      getRangeRD st.rawData p.1.1 p.1.2 = some (Except.ok bs)) :
    iterAnnots st (n0 :: rest) = some (c7Expected st (n0 :: rest) sd) ∧
    ((c7Expected st (n0 :: rest) sd).map
        (fun e => (e.2.start, e.2.stop))).Pairwise
      (fun x y => rangeLt x y = true) ∧
    ((∀ p ∈ sd, ¬ (((n0 :: rest).all fun k =>
        (typeIndexLookup st k p.1).isSome) = true)) →
      iterAnnots st (n0 :: rest) = some []) := by
  obtain ⟨hcons, _, _, _, htsorted⟩ := hinv
  have hmemty : (n0, sd) ∈ st.typeToAnnots := alookup_mem hty
  have hsd : rangeKeysSorted sd := htsorted (n0, sd) hmemty
  have hkm : ∀ p ∈ sd, Annot.range p.2 = p.1 ∧ Annot.name p.2 = n0 :=
    fun p hp => hkeys.2 (n0, sd) hmemty p hp
  have htyl : ∀ r : Int × Int, typeIndexLookup st n0 r = alookup r sd := by
    intro r
    unfold typeIndexLookup
    rw [hty]
    rfl
  have hpresent : ∀ p ∈ (sd.map fun p =>
      (okSlice (getRangeRD st.rawData p.1.1 p.1.2), p.2)),
      (alookup (Annot.range p.2) st.rangeToAnnots).isSome := by
    intro p hp
    obtain ⟨q, hq, rfl⟩ := List.mem_map.mp hp
    obtain ⟨r, a⟩ := q
    have hr : Annot.range a = (r : Int × Int) := by
      simpa using (hkm (r, a) hq).1
    have h1 : (typeIndexLookup st n0 r).isSome := by
      rw [htyl]
      exact alookup_isSome_of_mem hq
    have h2 : (rangeIndexLookup st r n0).isSome := by
      rw [hcons n0 r]
      exact h1
    dsimp only
    rw [hr]
    cases houter : alookup r st.rangeToAnnots with
    | none =>
      exfalso
      unfold rangeIndexLookup at h2
      rw [houter] at h2
      simp at h2
    | some _ => simp
  have hiter : iterAnnots st (n0 :: rest) =
      some (c7Expected st (n0 :: rest) sd) := by
    unfold iterAnnots iterAnnot
    dsimp only
    rw [hty]
    simp only [Option.some_bind]
    rw [iterAnnot_items st.rawData sd hslices]
    simp only [Option.some_bind]
    rw [iterAnnotsAux_eq st (n0 :: rest) _ hpresent]
    congr 1
    unfold c7Expected
    rw [List.filterMap_map]
    apply filterMap_congr_mem
    intro q hq
    obtain ⟨hr, _⟩ := hkm q hq
    simp only [Function.comp_apply]
    rw [hr]
    have hrw : ∀ k, rangeIndexLookup st q.1 k = typeIndexLookup st k q.1 :=
      fun k => hcons k q.1
    simp only [hrw]
  refine ⟨hiter, ?_, ?_⟩
  · rw [List.pairwise_map]
    unfold c7Expected
    apply pairwise_filterMap_of _ hsd
    intro a b x y hS hfa hfb
    by_cases hca : ((n0 :: rest).all fun k => (typeIndexLookup st k a.1).isSome)
    · by_cases hcb : ((n0 :: rest).all fun k => (typeIndexLookup st k b.1).isSome)
      · rw [if_pos hca] at hfa
        rw [if_pos hcb] at hfb
        have hxa := Option.some.inj hfa
        have hyb := Option.some.inj hfb
        rw [← hxa, ← hyb]
        simpa [mkAnnotSet] using hS
      · rw [if_neg hcb] at hfb
        exact absurd hfb (by simp)
    · rw [if_neg hca] at hfa
      exact absurd hfa (by simp)
  · intro hnone
    rw [hiter]
    have hempty : c7Expected st (n0 :: rest) sd = [] := by
      unfold c7Expected
      rw [List.filterMap_eq_nil_iff]
      intro p hp
      rw [if_neg (hnone p hp)]
    rw [hempty]

/-- The two-document data for the C7 witness. -/
def c7Docs : List (List Nat) := [[97, 98, 99]]

/-- The C7 witness store: a token and a path annotation at the identical
range `(0, 3)`. -/
def c7St : AnnotatedData :=
  [tokenAnnot 0 3, pathAnnot 0 3 "p"].foldl addAnnot
    (AnnotatedData.init c7Docs)

/-- The token index of the C7 witness store. -/
def c7Sd : List ((Int × Int) × Annot) := [((0, 3), tokenAnnot 0 3)]

/-- C7 witness: two annotations of different types at one identical
range, queried with both names, yield exactly one entry carrying both
values. -/
theorem c7_witness :
    iterAnnots c7St ["token", "path"] =
      some [([97, 98, 99],
        mkAnnotSet (0, 3)
          [("token", tokenAnnot 0 3), ("path", pathAnnot 0 3 "p")])] :=
  ((c7_co_located_iteration c7St "token" ["path"] c7Sd
      (storeInv_foldl _ _ (storeInv_init c7Docs))
      (storeKeysMatch_foldl _ _ (storeKeysMatch_init c7Docs))
      rfl
      (fun p hp => by
        rcases List.mem_cons.mp hp with heq | hmem
        · subst heq
          exact ⟨[97, 98, 99], rfl⟩
        · simp at hmem)).1).trans rfl

/-!
## Helper lemmas for line splitting and position lookup (C8)
-/

/-- No character of `l` is a line terminator. -/
def NoBreak (l : List Nat) : Prop := ∀ c ∈ l, isLineBreak c = false

/-- A line as produced by `splitlines(keepends=True)`: a terminator-free
body followed by nothing, a single terminator, or `\r\n`. -/
def LineShape (l : List Nat) : Prop :=
  ∃ body eol, l = body ++ eol ∧ NoBreak body ∧
    (eol = [] ∨ (∃ t, eol = [t] ∧ isLineBreak t = true) ∨ eol = [13, 10])

/-- Does the line end with a terminator character? -/
def lineHasEol (l : List Nat) : Bool :=
  match l.reverse with
  | [] => false
  | c :: _ => isLineBreak c

theorem linesAcc_eq_cumsumFrom (ds : List (List Nat)) (acc : Int) :
    linesAcc acc ds = cumsumFrom acc (ds.map (fun d => (d.length : Int))) := by
  induction ds generalizing acc with
  | nil => rfl
  | cons d rest ih => simp [linesAcc, cumsumFrom, ih]

theorem startsList_eq (ds : List (List Nat)) :
    0 :: linesAcc 0 ds =
      (List.range (ds.length + 1)).map (fun i => prefixLen ds i) := by
  rw [linesAcc_eq_cumsumFrom]
  have h0 : (0 : Int) :: cumsumFrom 0 (ds.map (fun d => (d.length : Int))) =
      cumsumFrom 0 (0 :: ds.map (fun d => (d.length : Int))) := by
    simp [cumsumFrom]
  rw [h0, cumsumFrom_eq]
  simp only [List.length_cons, List.length_map]
  apply List.map_congr_left
  intro i hi
  rw [List.mem_range] at hi
  simp only [List.take_succ_cons, List.sum_cons]
  rw [← List.map_take]
  unfold prefixLen
  omega

theorem length_bumpLast (l : List Int) : (bumpLast l).length = l.length := by
  induction l with
  | nil => rfl
  | cons x rest ih =>
    cases rest with
    | nil => rfl
    | cons y rest2 => simpa [bumpLast] using ih

theorem bumpLast_get (l : List Int) (i : Nat) :
    (bumpLast l).get? i =
      if i + 1 = l.length then (l.get? i).map (· + 1) else l.get? i := by
  induction l generalizing i with
  | nil => simp [bumpLast]
  | cons x rest ih =>
    cases rest with
    | nil =>
      cases i with
      | zero => simp [bumpLast]
      | succ j => simp [bumpLast]
    | cons y rest2 =>
      cases i with
      | zero =>
        simp [bumpLast]
      | succ j =>
        have := ih j
        simp only [bumpLast, List.get?_cons_succ, List.length_cons]
        rw [this]
        by_cases hc : j + 1 = rest2.length + 1 <;> simp [hc]

theorem splitAux_nil_shape (cur : List Nat) (hcur : NoBreak cur) :
    ∀ line ∈ splitAux cur [], LineShape line ∧ line ≠ [] := by
  intro line hline
  simp only [splitAux] at hline
  by_cases hc : cur.isEmpty
  · rw [if_pos hc] at hline
    simp at hline
  · rw [if_neg hc] at hline
    simp only [List.mem_singleton] at hline
    subst hline
    have hrevne : cur.reverse ≠ [] := by
      rw [List.isEmpty_iff] at hc
      simpa using hc
    refine ⟨⟨cur.reverse, [], by simp, ?_, Or.inl rfl⟩, hrevne⟩
    intro x hx
    exact hcur x (List.mem_reverse.mp hx)

theorem splitAux_shape_fuel :
    ∀ (n : Nat) (s cur : List Nat), s.length ≤ n → NoBreak cur →
      ∀ line ∈ splitAux cur s, LineShape line ∧ line ≠ [] := by
  intro n
  induction n with
  | zero =>
    intro s cur hlen hcur line hline
    have hs : s = [] := by
      cases s with
      | nil => rfl
      | cons a b => simp at hlen
    subst hs
    exact splitAux_nil_shape cur hcur line hline
  | succ n ih =>
    intro s cur hlen hcur line hline
    cases s with
    | nil => exact splitAux_nil_shape cur hcur line hline
    | cons c rest =>
      rw [splitAux.eq_def] at hline
      dsimp only at hline
      by_cases h13 : c = 13
      · rw [if_pos h13] at hline
        cases rest with
        | nil =>
          dsimp only at hline
          simp only [List.mem_singleton] at hline
          subst hline
          refine ⟨⟨cur.reverse, [13], rfl, ?_, Or.inr (Or.inl ⟨13, rfl, rfl⟩)⟩,
            by simp⟩
          intro x hx
          exact hcur x (List.mem_reverse.mp hx)
        | cons c2 rest2 =>
          dsimp only at hline
          by_cases h10 : c2 = 10
          · rw [if_pos h10] at hline
            rcases List.mem_cons.mp hline with rfl | hmem
            · refine ⟨⟨cur.reverse, [13, 10], rfl, ?_,
                Or.inr (Or.inr rfl)⟩, by simp⟩
              intro x hx
              exact hcur x (List.mem_reverse.mp hx)
            · exact ih rest2 [] (by simp at hlen; omega) (by intro x hx; simp at hx)
                line hmem
          · rw [if_neg h10] at hline
            rcases List.mem_cons.mp hline with rfl | hmem
            · refine ⟨⟨cur.reverse, [13], rfl, ?_,
                Or.inr (Or.inl ⟨13, rfl, rfl⟩)⟩, by simp⟩
              intro x hx
              exact hcur x (List.mem_reverse.mp hx)
            · exact ih (c2 :: rest2) [] (by simpa using hlen)
                (by intro x hx; simp at hx) line hmem
      · rw [if_neg h13] at hline
        by_cases hbr : isLineBreak c
        · rw [if_pos hbr] at hline
          rcases List.mem_cons.mp hline with rfl | hmem
          · refine ⟨⟨cur.reverse, [c], rfl, ?_,
              Or.inr (Or.inl ⟨c, rfl, hbr⟩)⟩, by simp⟩
            intro x hx
            exact hcur x (List.mem_reverse.mp hx)
          · exact ih rest [] (by simpa using hlen) (by intro x hx; simp at hx)
              line hmem
        · rw [if_neg hbr] at hline
          refine ih rest (c :: cur) (by simpa using hlen) ?_ line hline
          intro x hx
          rcases List.mem_cons.mp hx with rfl | hx2
          · simpa using hbr
          · exact hcur x hx2

/-- Every line produced by `splitlines(keepends=True)` has the line
shape and is nonempty. -/
theorem splitlinesKeepends_shape (s : List Nat) :
    ∀ line ∈ splitlinesKeepends s, LineShape line ∧ line ≠ [] :=
  splitAux_shape_fuel s.length s [] (le_refl _) (by intro x hx; simp at hx)

theorem splitAux_total_fuel :
    ∀ (n : Nat) (s cur : List Nat), s.length ≤ n →
      (((splitAux cur s).map (fun l => (l.length : Int))).sum) =
        cur.length + s.length := by
  intro n
  induction n with
  | zero =>
    intro s cur hlen
    have hs : s = [] := by
      cases s with
      | nil => rfl
      | cons a b => simp at hlen
    subst hs
    simp only [splitAux]
    by_cases hc : cur.isEmpty
    · rw [if_pos hc]
      rw [List.isEmpty_iff] at hc
      simp [hc]
    · rw [if_neg hc]
      simp
  | succ n ih =>
    intro s cur hlen
    cases s with
    | nil =>
      simp only [splitAux]
      by_cases hc : cur.isEmpty
      · rw [if_pos hc]
        rw [List.isEmpty_iff] at hc
        simp [hc]
      · rw [if_neg hc]
        simp
    | cons c rest =>
      rw [splitAux.eq_def]
      dsimp only
      by_cases h13 : c = 13
      · rw [if_pos h13]
        cases rest with
        | nil => simp
        | cons c2 rest2 =>
          dsimp only
          by_cases h10 : c2 = 10
          · rw [if_pos h10]
            have := ih rest2 [] (by simp at hlen; omega)
            simp only [List.map_cons, List.sum_cons, this]
            simp
            omega
          · rw [if_neg h10]
            have := ih (c2 :: rest2) [] (by simpa using hlen)
            simp only [List.map_cons, List.sum_cons, this]
            simp
            omega
      · rw [if_neg h13]
        by_cases hbr : isLineBreak c
        · rw [if_pos hbr]
          have := ih rest [] (by simpa using hlen)
          simp only [List.map_cons, List.sum_cons, this]
          simp
          omega
        · rw [if_neg hbr]
          have := ih rest (c :: cur) (by simpa using hlen)
          rw [this]
          simp
          omega

/-- The lines of `splitlines(keepends=True)` cover the text exactly. -/
theorem splitlinesKeepends_total (s : List Nat) :
    prefixLen (splitlinesKeepends s) (splitlinesKeepends s).length =
      (s.length : Int) := by
  unfold prefixLen
  rw [List.take_length]
  simpa using splitAux_total_fuel s.length s [] (le_refl _)

theorem splitAux_append_noBreak (body : List Nat) (hnb : NoBreak body) :
    ∀ (cur s : List Nat),
      splitAux cur (body ++ s) = splitAux (body.reverse ++ cur) s := by
  induction body with
  | nil => intro cur s; simp
  | cons b body2 ih =>
    intro cur s
    have hb : isLineBreak b = false := hnb b (List.mem_cons_self _ _)
    have hb13 : ¬ b = 13 := by
      intro hcon
      subst hcon
      simp [isLineBreak] at hb
    have hnb2 : NoBreak body2 := fun x hx => hnb x (List.mem_cons_of_mem _ hx)
    rw [List.cons_append, splitAux.eq_def]
    dsimp only
    rw [if_neg hb13, if_neg (by simp [hb])]
    rw [ih hnb2 (b :: cur) s]
    congr 1
    simp

theorem splitAux_eol (body : List Nat) (eol : List Nat)
    (heol : (∃ t, eol = [t] ∧ isLineBreak t = true) ∨ eol = [13, 10]) :
    splitAux body.reverse eol = [body ++ eol] := by
  rcases heol with ⟨t, rfl, ht⟩ | rfl
  · by_cases ht13 : t = 13
    · subst ht13
      rw [splitAux.eq_def]
      simp
    · rw [splitAux.eq_def]
      dsimp only
      rw [if_neg ht13, if_pos ht]
      simp [splitAux]
  · rw [splitAux.eq_def]
    simp [splitAux]

/-- `splitlines(keepends=True)` of a single (nonempty, well-shaped) line
is that line alone. -/
theorem splitlinesKeepends_single {l : List Nat} (hl : LineShape l)
    (hne : l ≠ []) : splitlinesKeepends l = [l] := by
  obtain ⟨body, eol, rfl, hnb, heol⟩ := hl
  unfold splitlinesKeepends
  rw [splitAux_append_noBreak body hnb [] eol]
  rw [List.append_nil]
  rcases heol with rfl | heol
  · rw [List.append_nil] at hne ⊢
    rw [splitAux.eq_def]
    dsimp only
    rw [if_neg (by simpa [List.isEmpty_iff] using hne)]
    simp
  · exact splitAux_eol body eol heol

theorem removeEol_of_eol (body : List Nat) (hnb : NoBreak body)
    (eol : List Nat)
    (heol : (∃ t, eol = [t] ∧ isLineBreak t = true) ∨ eol = [13, 10]) :
    removeEol (body ++ eol) = body := by
  rcases heol with ⟨t, rfl, ht⟩ | rfl
  · unfold removeEol
    have hrev : (body ++ [t]).reverse = t :: body.reverse := by simp
    rw [hrev]
    dsimp only
    by_cases ht10 : t = 10
    · rw [if_pos ht10]
      have hhead : ¬ body.reverse.head? = some 13 := by
        intro hcon
        have h13 : (13 : Nat) ∈ body.reverse := by
          cases hrevb : body.reverse with
          | nil => rw [hrevb] at hcon; simp at hcon
          | cons b rb =>
            rw [hrevb] at hcon
            simp only [List.head?_cons, Option.some.injEq] at hcon
            rw [hcon]
            exact List.mem_cons_self _ _
        have := hnb 13 (List.mem_reverse.mp h13)
        simp [isLineBreak] at this
      rw [if_neg hhead]
      simp [List.dropLast_concat]
    · rw [if_neg ht10, if_pos ht]
      simp [List.dropLast_concat]
  · unfold removeEol
    have hrev : (body ++ [13, 10]).reverse = 10 :: 13 :: body.reverse := by
      simp
    rw [hrev]
    dsimp only
    rw [if_pos rfl, if_pos (by simp)]
    have h1 : (body ++ [13, 10]) = (body ++ [13]) ++ [10] := by simp
    rw [h1, List.dropLast_concat, List.dropLast_concat]

theorem removeEol_noBreak (body : List Nat) (hnb : NoBreak body) :
    removeEol body = body := by
  unfold removeEol
  cases hrev : body.reverse with
  | nil => rfl
  | cons b rbody =>
    dsimp only
    have hbmem : b ∈ body := by
      have hx : b ∈ body.reverse := by rw [hrev]; exact List.mem_cons_self _ _
      exact List.mem_reverse.mp hx
    have hb : isLineBreak b = false := hnb b hbmem
    have hb10 : ¬ b = 10 := by
      intro hcon
      rw [hcon] at hb
      simp [isLineBreak] at hb
    rw [if_neg hb10, if_neg (by simp [hb])]

theorem lineHasEol_of_eol (body : List Nat) (eol : List Nat)
    (heol : (∃ t, eol = [t] ∧ isLineBreak t = true) ∨ eol = [13, 10]) :
    lineHasEol (body ++ eol) = true := by
  unfold lineHasEol
  rcases heol with ⟨t, rfl, ht⟩ | rfl
  · simp [ht]
  · simp [isLineBreak]

theorem lineHasEol_noBreak (body : List Nat) (hnb : NoBreak body) :
    lineHasEol body = false := by
  unfold lineHasEol
  cases hrev : body.reverse with
  | nil => rfl
  | cons b rbody =>
    have hbmem : b ∈ body := by
      have : b ∈ body.reverse := by rw [hrev]; exact List.mem_cons_self _ _
      exact List.mem_reverse.mp this
    exact hnb b hbmem

/-- C8.  For a codepoint offset `offset` with `0 ≤ offset ≤ len(text)`
whose greatest line-start `≤ offset` is that of line `d` (0-based),
`_get_position` computes column `offset - start(d)` and emits 1-based
line and column; when that column equals the stored length of line `d`
and the line carries a trailing terminator, the position is re-expressed
as column 1 of line `d + 2` (1-based next line); on a final line without
terminator it stays as the last column of line `d + 1`. -/
theorem c8_position_lookup (s : List Nat) (offset : Int) (d : Nat)
    (hd : d < (splitlinesKeepends s).length)
    (h1 : prefixLen (splitlinesKeepends s) d ≤ offset)
    (h2 : d + 1 < (splitlinesKeepends s).length →
      offset < prefixLen (splitlinesKeepends s) (d + 1))
    (h3 : offset ≤ (s.length : Int)) :
    getPosition s offset = some
      (if (((splitlinesKeepends s).getD d []).length : Int) =
            offset - prefixLen (splitlinesKeepends s) d ∧
          lineHasEol ((splitlinesKeepends s).getD d []) = true
        then ⟨offset, ((d : Int) + 1) + 1, 0 + 1⟩
        else ⟨offset, (d : Int) + 1,
          (offset - prefixLen (splitlinesKeepends s) d) + 1⟩) := by
  have hsne : s ≠ [] := by
    intro hcon
    subst hcon
    simp [splitlinesKeepends, splitAux] at hd
  have hblm : buildLinesOffsetMapping s =
      bumpLast ((List.range ((splitlinesKeepends s).length + 1)).map
        (fun i => prefixLen (splitlinesKeepends s) i)) := by
    unfold buildLinesOffsetMapping
    rw [if_neg (by simpa [List.isEmpty_iff] using hsne)]
    rw [startsList_eq]
  have hlenblm : (buildLinesOffsetMapping s).length =
      (splitlinesKeepends s).length + 1 := by
    rw [hblm, length_bumpLast]
    simp
  have hget_lt : ∀ i, i < (splitlinesKeepends s).length →
      (buildLinesOffsetMapping s).get? i =
        some (prefixLen (splitlinesKeepends s) i) := by
    intro i hi
    rw [hblm, bumpLast_get]
    rw [if_neg (by simp; omega)]
    simp [List.getElem?_eq_getElem, hi, Nat.lt_succ_of_lt hi]
  have hget_last : (buildLinesOffsetMapping s).get?
      (splitlinesKeepends s).length =
        some (prefixLen (splitlinesKeepends s)
          (splitlinesKeepends s).length + 1) := by
    rw [hblm, bumpLast_get]
    rw [if_pos (by simp)]
    simp
  have htotal := splitlinesKeepends_total s
  unfold getPosition
  rw [if_neg (by
    rw [List.isEmpty_iff]
    intro hcon
    rw [hcon] at hlenblm
    simp at hlenblm)]
  have harg : pyArgmax ((buildLinesOffsetMapping s).map
      (fun t => decide (t > offset))) = d + 1 := by
    refine pyArgmax_eq_of _ _ ?_ ?_ ?_
    · rw [List.length_map, hlenblm]
      omega
    · rw [List.getElem_map]
      simp only [decide_eq_true_eq]
      by_cases hcase : d + 1 < (splitlinesKeepends s).length
      · have hv := hget_lt (d + 1) hcase
        rw [List.get?_eq_getElem?, List.getElem?_eq_getElem (by omega)] at hv
        rw [Option.some.inj hv]
        exact h2 hcase
      · have hlast : d + 1 = (splitlinesKeepends s).length := by omega
        have hv := hget_last
        rw [List.get?_eq_getElem?, ← hlast] at hv
        rw [List.getElem?_eq_getElem (by omega)] at hv
        rw [Option.some.inj hv, hlast, htotal]
        omega
    · intro j hj hjlt
      rw [List.getElem_map]
      simp only [decide_eq_false_iff_not, not_lt]
      have hjn : j < (splitlinesKeepends s).length := by omega
      have hv := hget_lt j hjn
      rw [List.get?_eq_getElem?, List.getElem?_eq_getElem (by omega)] at hv
      rw [Option.some.inj hv]
      exact le_trans (prefixLen_mono _ (by omega)) h1
  rw [harg]
  have hcast : (((d + 1 : Nat) : Int)) - 1 = (d : Int) := by push_cast; ring
  rw [hcast]
  have hpyblm : pyGet (buildLinesOffsetMapping s) (d : Int) =
      some (prefixLen (splitlinesKeepends s) d) := by
    unfold pyGet
    rw [if_pos (by positivity)]
    simpa using hget_lt d hd
  simp only [hpyblm, Option.some_bind]
  have hpylines : pyGet (splitlinesKeepends s) (d : Int) =
      some ((splitlinesKeepends s).getD d []) := by
    unfold pyGet
    rw [if_pos (by positivity)]
    simp [List.getElem?_eq_getElem, hd]
  simp only [hpylines, Option.some_bind]
  have hline := splitlinesKeepends_shape s ((splitlinesKeepends s).getD d [])
    (by
      have : (splitlinesKeepends s).getD d [] ∈ splitlinesKeepends s := by
        rw [List.getD_eq_getElem?_getD, List.getElem?_eq_getElem hd]
        exact List.getElem_mem _
      exact this)
  obtain ⟨hshape, hlne⟩ := hline
  have hsingle : splitlinesNoKeep ((splitlinesKeepends s).getD d []) =
      [removeEol ((splitlinesKeepends s).getD d [])] := by
    unfold splitlinesNoKeep
    rw [splitlinesKeepends_single hshape hlne]
    rfl
  by_cases hcol : ((((splitlinesKeepends s).getD d []).length : Int)) =
      offset - prefixLen (splitlinesKeepends s) d
  · rw [if_pos hcol]
    rw [hsingle]
    simp only [List.head?_cons, Option.some_bind]
    obtain ⟨body, eol, heq, hnb, heol⟩ := hshape
    by_cases heolb : lineHasEol ((splitlinesKeepends s).getD d []) = true
    · have heoln : eol ≠ [] := by
        intro hcon
        subst hcon
        rw [heq, List.append_nil] at heolb
        rw [lineHasEol_noBreak body hnb] at heolb
        simp at heolb
      have heol2 : (∃ t, eol = [t] ∧ isLineBreak t = true) ∨ eol = [13, 10] := by
        rcases heol with hcon | h
        · exact absurd hcon heoln
        · exact h
      have hrem : removeEol ((splitlinesKeepends s).getD d []) = body := by
        rw [heq]
        exact removeEol_of_eol body hnb eol heol2
      have hneq : removeEol ((splitlinesKeepends s).getD d []) ≠
          (splitlinesKeepends s).getD d [] := by
        rw [hrem, heq]
        intro hcon
        have := congrArg List.length hcon
        simp at this
        rcases heol2 with ⟨t, rfl, _⟩ | rfl <;> simp at this
      rw [if_pos hneq]
      rw [if_pos ⟨hcol, heolb⟩]
    · have heoln : eol = [] := by
        rcases heol with h | h2
        · exact h
        · exfalso
          apply heolb
          rw [heq]
          exact lineHasEol_of_eol body eol h2
      subst heoln
      rw [List.append_nil] at heq
      have hrem : removeEol ((splitlinesKeepends s).getD d []) =
          (splitlinesKeepends s).getD d [] := by
        rw [heq]
        exact removeEol_noBreak body hnb
      rw [if_neg (by simpa using hrem)]
      rw [if_neg (by
        intro hcon
        exact heolb hcon.2)]
  · rw [if_neg (by
      intro hcon
      exact hcol hcon)]
    rw [if_neg (by
      intro hcon
      exact hcol hcon.1)]

/-- C8 witness: in the text "ab\n" the offset 3 equals the stored length
of line 0 ("ab\n"), which carries a terminator, so the position is
re-expressed as line 2, column 1. -/
theorem c8_witness : getPosition [97, 98, 10] 3 = some ⟨3, 2, 1⟩ := by
  rw [c8_position_lookup [97, 98, 10] 3 0 (by decide) (by decide)
    (by decide) (by decide)]
  decide

/-!
## Helper lemmas for the byte-offset table (C3)
-/

/-- A byte that is invalid on its own in any context: a byte that can
never start a sequence (`0x80..0xC1`, `0xF5..0xFF`) — such bytes always
decode to one replacement character each. -/
def standaloneInvalid (b : Nat) : Bool :=
  (0x80 ≤ b && b ≤ 0xC1) || 0xF5 ≤ b

/-- Cumulative byte length contributed by the first `k` code points. -/
def cumContrib (str : List Nat) (k : Nat) : Nat :=
  ((str.take k).map contribution).sum

/-- Total byte length contributed by all code points. -/
def sumContrib (str : List Nat) : Nat := (str.map contribution).sum

theorem contribution_le_csize (c : Nat) : contribution c ≤ csize c := by
  unfold contribution csize fffd
  repeat' split
  all_goals omega

theorem csize_scalar2_le (b c1 : Nat) (hb : b ≤ 0xDF) (hc : c1 ≤ 0xBF) :
    csize (scalar2 b c1) ≤ 2 := by
  unfold csize scalar2
  split
  · omega
  · split
    · omega
    · omega

theorem csize_scalar3_le (b c1 c2 : Nat) (hb : b ≤ 0xEF) (hc1 : c1 ≤ 0xBF)
    (hc2 : c2 ≤ 0xBF) : csize (scalar3 b c1 c2) ≤ 3 := by
  unfold csize scalar3
  split
  · omega
  · split
    · omega
    · split
      · omega
      · omega

theorem csize_ascii (b : Nat) (hb : b < 0x80) : csize b = 1 := by
  unfold csize
  rw [if_pos hb]

theorem csize_le_four (c : Nat) : csize c ≤ 4 := by
  unfold csize
  split
  · omega
  · split
    · omega
    · split <;> omega

theorem sumContrib_cons (c : Nat) (l : List Nat) :
    sumContrib (c :: l) = contribution c + sumContrib l := by
  simp [sumContrib]

theorem cont2ok_true_iff (b c1 : Nat) : cont2ok b c1 = true ↔
    ((b = 0xE0 ∧ 0xA0 ≤ c1 ∧ c1 ≤ 0xBF) ∨
     (b ≠ 0xE0 ∧ b = 0xED ∧ 0x80 ≤ c1 ∧ c1 ≤ 0x9F) ∨
     (b ≠ 0xE0 ∧ b ≠ 0xED ∧ 0x80 ≤ c1 ∧ c1 ≤ 0xBF)) := by
  unfold cont2ok contByte
  split
  · simp_all
  · split
    · simp_all
    · simp_all

theorem cont2okF_true_iff (b c1 : Nat) : cont2okF b c1 = true ↔
    ((b = 0xF0 ∧ 0x90 ≤ c1 ∧ c1 ≤ 0xBF) ∨
     (b ≠ 0xF0 ∧ b = 0xF4 ∧ 0x80 ≤ c1 ∧ c1 ≤ 0x8F) ∨
     (b ≠ 0xF0 ∧ b ≠ 0xF4 ∧ 0x80 ≤ c1 ∧ c1 ≤ 0xBF)) := by
  unfold cont2okF contByte
  split
  · simp_all
  · split
    · simp_all
    · simp_all

set_option maxRecDepth 4000 in
/-- The decoded text never accounts for more bytes than the input has:
each decoded code point's contribution is at most the number of bytes
consumed to produce it. -/
theorem sumContrib_decode_le (bs : List Nat) :
    sumContrib (utf8DecodeReplace bs) ≤ bs.length := by
  induction bs using utf8DecodeReplace.induct
  all_goals rw [utf8DecodeReplace.eq_def]
  all_goals
    simp_all only [sumContrib, contribution, csize, scalar2,
      scalar3, scalar4, fffd, contByte, cont2ok_true_iff, cont2okF_true_iff,
      List.map_cons, List.map_nil, List.sum_cons, List.sum_nil,
      List.length_cons, List.length_nil, Bool.and_eq_true, decide_eq_true_eq,
      if_true, if_false, and_true, true_and, eq_self_iff_true]
  all_goals (repeat' split)
  all_goals (try trivial)
  all_goals omega

theorem contribution_pos (c : Nat) : 1 ≤ contribution c := by
  unfold contribution csize
  repeat' split
  all_goals omega

theorem cumContrib_zero (str : List Nat) : cumContrib str 0 = 0 := by
  simp [cumContrib]

theorem cumContrib_cons (c : Nat) (l : List Nat) (k : Nat) :
    cumContrib (c :: l) (k + 1) = contribution c + cumContrib l k := by
  simp [cumContrib, List.take_succ_cons]

theorem cumContrib_succ (str : List Nat) (k : Nat) (hk : k < str.length) :
    cumContrib str (k + 1) = cumContrib str k + contribution str[k] := by
  have h2 : k < (str.map contribution).length := by simpa using hk
  have h3 := List.sum_take_succ (str.map contribution) k h2
  unfold cumContrib
  simp only [List.map_take]
  rw [h3]
  simp

theorem cumContrib_lt (str : List Nat) {j k : Nat} (hjk : j < k)
    (hk : k ≤ str.length) : cumContrib str j < cumContrib str k := by
  induction k with
  | zero => omega
  | succ n ih =>
    have hn : n < str.length := by omega
    rw [cumContrib_succ str n hn]
    have hp := contribution_pos str[n]
    rcases Nat.lt_succ_iff_lt_or_eq.mp hjk with h | h
    · have := ih h (by omega)
      omega
    · subst h
      omega

theorem cumContrib_length (str : List Nat) :
    cumContrib str str.length = sumContrib str := by
  simp [cumContrib, sumContrib, List.take_length]

theorem pdSet_append_of_forall_ne [DecidableEq κ] (l : List (κ × α)) (k : κ)
    (v : α) (h : ∀ p ∈ l, p.1 ≠ k) : pdSet k v l = l ++ [(k, v)] := by
  induction l with
  | nil => rfl
  | cons p rest ih =>
    obtain ⟨k0, v0⟩ := p
    simp only [pdSet]
    rw [if_neg (h (k0, v0) (List.mem_cons_self _ _))]
    rw [ih (fun p hp => h p (List.mem_cons_of_mem _ hp))]
    simp

theorem buildLoop_eq (cs : List Nat) (i acc : Nat) (d : List (Nat × Nat))
    (hk : ∀ p ∈ d, p.1 ≤ acc) :
    buildLoop cs i acc d =
      d ++ (List.range cs.length).map
        (fun j => (acc + cumContrib cs (j + 1), i + j + 1)) := by
  induction cs generalizing i acc d with
  | nil => simp [buildLoop]
  | cons c cs ih =>
    rw [buildLoop]
    rw [pdSet_append_of_forall_ne _ _ _
      (fun p hp => by have := hk p hp; have := contribution_pos c; omega)]
    rw [ih (i + 1) (acc + contribution c) _
      (by
        intro p hp
        rcases List.mem_append.mp hp with h | h
        · have := hk p h
          omega
        · simp at h
          simp [h])]
    simp [List.range_succ_eq_map, List.map_map, Function.comp,
      cumContrib_cons, cumContrib_zero, Nat.add_assoc, Nat.add_comm,
      Nat.add_left_comm]

theorem alookup_map_key (f g : Nat → Nat) (l : List Nat) (i : Nat)
    (hmem : i ∈ l) (hinj : ∀ j ∈ l, f j = f i → j = i) :
    alookup (f i) (l.map (fun j => (f j, g j))) = some (g i) := by
  induction l with
  | nil => cases hmem
  | cons a t ih =>
    simp only [List.map_cons, alookup]
    by_cases h : f a = f i
    · rw [if_pos h, hinj a (List.mem_cons_self a t) h]
    · rw [if_neg h]
      cases hmem with
      | head => exact absurd rfl h
      | tail _ hm =>
        exact ih hm (fun j hj => hinj j (List.mem_cons_of_mem _ hj))

theorem decode_standalone (b : Nat) (rest : List Nat)
    (h : standaloneInvalid b = true) :
    utf8DecodeReplace (b :: rest) = fffd :: utf8DecodeReplace rest := by
  have h2 : (128 ≤ b ∧ b ≤ 193) ∨ 245 ≤ b := by
    simpa [standaloneInvalid, Bool.or_eq_true, Bool.and_eq_true,
      decide_eq_true_eq] using h
  rw [utf8DecodeReplace.eq_def]
  dsimp only
  simp only [Bool.and_eq_true, decide_eq_true_eq]
  rw [if_neg (by omega), if_neg (by omega), if_neg (by omega),
    if_neg (by omega)]

theorem decode_run (run suffix : List Nat)
    (h : ∀ b ∈ run, standaloneInvalid b = true) :
    utf8DecodeReplace (run ++ suffix) =
      List.replicate run.length fffd ++ utf8DecodeReplace suffix := by
  induction run with
  | nil => simp
  | cons b t ih =>
    rw [List.cons_append, decode_standalone b _ (h b (List.mem_cons_self b t)),
      ih (fun x hx => h x (List.mem_cons_of_mem _ hx))]
    simp [List.replicate_succ]

theorem buildMapping_eq (content : List Nat) :
    buildBytesToStrOffsetMapping content =
      pdSet content.length (utf8DecodeReplace content).length
        ((0, 0) :: (List.range (utf8DecodeReplace content).length).map
          (fun j => (cumContrib (utf8DecodeReplace content) (j + 1), j + 1))) := by
  simp only [buildBytesToStrOffsetMapping]
  rw [buildLoop_eq _ 0 0 _ (by intro p hp; simp at hp; simp [hp])]
  simp

/-- C3, corrected.  The byte-to-codepoint offset table is the cumulative
mapping of the decoded view under CPython's actual `errors="replace"`
semantics ("substitution of maximal subparts"): the boundary entries
`0 -> 0` and `len(bytes) -> len(codepoints)` are always present, after the
first `i + 1` code points the cumulative byte length is a key mapping to
codepoint index `i + 1`, and these are the only keys; each code point
contributes its encoded byte length except U+FFFD, which always
contributes exactly `1`; a run of K *standalone-invalid* bytes (bytes that
can start no sequence and continue none, `0x80..0xC1` and `0xF5..0xFF`)
yields exactly K placeholder code points — but a maximal invalid subpart
of several bytes (e.g. a truncated multi-byte prefix) yields a single
placeholder, not one per byte; for `b"caf\xC3\xA9!"` byte offset 6 maps
to codepoint offset 5. -/
theorem c3_offset_table_decoded_view (content : List Nat) :
    alookup 0 (buildBytesToStrOffsetMapping content) = some 0 ∧
    alookup content.length (buildBytesToStrOffsetMapping content)
      = some (utf8DecodeReplace content).length ∧
    (∀ i, i < (utf8DecodeReplace content).length →
      alookup (cumContrib (utf8DecodeReplace content) (i + 1))
        (buildBytesToStrOffsetMapping content) = some (i + 1)) ∧
    (∀ k v, alookup k (buildBytesToStrOffsetMapping content) = some v →
      (k = content.length ∧ v = (utf8DecodeReplace content).length) ∨
      (v ≤ (utf8DecodeReplace content).length ∧
        k = cumContrib (utf8DecodeReplace content) v)) ∧
    (∀ run suffix, content = run ++ suffix →
      (∀ b ∈ run, standaloneInvalid b = true) →
      utf8DecodeReplace content =
        List.replicate run.length fffd ++ utf8DecodeReplace suffix) ∧
    (∀ c, contribution c = if c = fffd then 1 else csize c) ∧
    alookup 6 (buildBytesToStrOffsetMapping [99, 97, 102, 0xC3, 0xA9, 33])
      = some 5 := by
  have hsum := sumContrib_decode_le content
  refine ⟨?_, ?_, ?_, ?_, ?_, fun c => rfl, by decide⟩
  · rw [buildMapping_eq, alookup_pdSet]
    by_cases h0 : (0 : Nat) = content.length
    · rw [if_pos h0]
      have hc : content = [] := List.length_eq_zero.mp h0.symm
      subst hc
      rfl
    · rw [if_neg h0]
      simp [alookup]
  · rw [buildMapping_eq, alookup_pdSet, if_pos rfl]
  · intro i hi
    rw [buildMapping_eq, alookup_pdSet]
    by_cases hci : cumContrib (utf8DecodeReplace content) (i + 1) = content.length
    · rw [if_pos hci]
      have hle : i + 1 ≤ (utf8DecodeReplace content).length := hi
      rcases Nat.lt_or_ge (i + 1) (utf8DecodeReplace content).length with hlt | hge
      · have h1 := cumContrib_lt (utf8DecodeReplace content) hlt (le_refl _)
        rw [cumContrib_length] at h1
        omega
      · have heq : i + 1 = (utf8DecodeReplace content).length := by omega
        rw [heq]
    · rw [if_neg hci]
      have hpos : 0 < cumContrib (utf8DecodeReplace content) (i + 1) := by
        have h4 := cumContrib_lt (utf8DecodeReplace content)
          (show 0 < i + 1 by omega) (by omega)
        rw [cumContrib_zero] at h4
        omega
      simp only [alookup]
      rw [if_neg (by omega)]
      exact alookup_map_key
        (fun j => cumContrib (utf8DecodeReplace content) (j + 1))
        (fun j => j + 1) (List.range _) i
        (List.mem_range.mpr hi)
        (fun j hj heq => by
          have hj2 := List.mem_range.mp hj
          have heq2 : cumContrib (utf8DecodeReplace content) (j + 1)
              = cumContrib (utf8DecodeReplace content) (i + 1) := heq
          rcases Nat.lt_trichotomy j i with h | h | h
          · have h3 := cumContrib_lt (utf8DecodeReplace content)
              (show j + 1 < i + 1 by omega) (by omega)
            omega
          · exact h
          · have h3 := cumContrib_lt (utf8DecodeReplace content)
              (show i + 1 < j + 1 by omega) (by omega)
            omega)
  · intro k v hkv
    rw [buildMapping_eq, alookup_pdSet] at hkv
    by_cases hk : k = content.length
    · rw [if_pos hk] at hkv
      cases hkv
      exact Or.inl ⟨hk, rfl⟩
    · rw [if_neg hk] at hkv
      have hmem := alookup_mem hkv
      rcases List.mem_cons.mp hmem with h | h
      · have h1 : k = 0 ∧ v = 0 := by
          constructor <;> [exact congrArg Prod.fst h; exact congrArg Prod.snd h]
        exact Or.inr ⟨by omega, by rw [h1.1, h1.2, cumContrib_zero]⟩
      · simp only [List.mem_map, List.mem_range] at h
        obtain ⟨j, hj, hpair⟩ := h
        have h1 : k = cumContrib (utf8DecodeReplace content) (j + 1) :=
          (congrArg Prod.fst hpair).symm
        have h2 : v = j + 1 := (congrArg Prod.snd hpair).symm
        exact Or.inr ⟨by omega, by rw [h1, h2]⟩
  · intro run suffix hco hrun
    rw [hco]
    exact decode_run run suffix hrun

/-!
## Helper lemmas for `convert_uast` (C9): block decomposition of the
flattened tree and the breadth-first rewrite
-/


/-- The consecutive child blocks of a forest laid out from base `a`:
absolute block start paired with the subtree. -/
def childBlocks (a : Nat) : List UNode → List (Nat × UNode)
  | [] => []
  | t :: ts => (a, t) :: childBlocks (a + sizeU t) ts

theorem sizeU_pos (t : UNode) : 1 ≤ sizeU t := by
  cases t with
  | mk sp ep cs => rw [sizeU]; omega

theorem shiftHeap_length (d : Nat) (h : Heap) :
    (shiftHeap d h).length = h.length := by
  simp [shiftHeap]

theorem shiftHeap_append (d : Nat) (h1 h2 : Heap) :
    shiftHeap d (h1 ++ h2) = shiftHeap d h1 ++ shiftHeap d h2 := by
  simp [shiftHeap]

theorem shiftHeap_shiftHeap (a b : Nat) (h : Heap) :
    shiftHeap a (shiftHeap b h) = shiftHeap (b + a) h := by
  simp [shiftHeap, List.map_map, Function.comp, Nat.add_assoc]

mutual

theorem flat_length : ∀ t, (flat t).length = sizeU t
  | UNode.mk sp ep cs => by
    rw [flat, sizeU, List.length_append, flatL_length cs]
    simp

theorem flatL_length : ∀ ts, (flatL ts).length = sizeL ts
  | [] => rfl
  | t :: ts => by
    rw [flatL, sizeL, List.length_append, flat_length t, shiftHeap_length,
      flatL_length ts]

end

theorem childBlocks_roots (cs : List UNode) (a : Nat) :
    (childBlocks a cs).map (fun p => p.1 + sizeU p.2 - 1) =
      (rootsOf cs).map (· + a) := by
  induction cs generalizing a with
  | nil => rfl
  | cons u us ih =>
    have hp := sizeU_pos u
    rw [childBlocks, rootsOf, List.map_cons, List.map_cons, ih (a + sizeU u),
      List.map_map]
    have h2 : ((fun x => x + a) ∘ fun x => x + sizeU u) =
        (fun x => x + (a + sizeU u)) := by
      funext x
      show x + sizeU u + a = x + (a + sizeU u)
      omega
    rw [h2]
    congr 1
    show a + sizeU u - 1 = sizeU u - 1 + a
    omega

theorem childBlocks_bounds (cs : List UNode) (a : Nat) :
    ∀ p ∈ childBlocks a cs, a ≤ p.1 ∧ p.1 + sizeU p.2 ≤ a + sizeL cs := by
  induction cs generalizing a with
  | nil => intro p hp; cases hp
  | cons u us ih =>
    intro p hp
    rw [childBlocks] at hp
    rw [sizeL]
    cases hp with
    | head =>
      exact ⟨le_refl a, by show a + sizeU u ≤ a + (sizeU u + sizeL us); omega⟩
    | tail _ hmem =>
      have h1 := ih (a + sizeU u) p hmem
      exact ⟨by omega, by omega⟩

theorem childBlocks_cell (cs : List UNode) (a : Nat) :
    ∀ p ∈ childBlocks a cs, ∀ j2, j2 < sizeU p.2 →
      ∃ j, j < sizeL cs ∧ a + j = p.1 + j2 ∧
        (shiftHeap a (flatL cs)).get? j = (shiftHeap p.1 (flat p.2)).get? j2 := by
  induction cs generalizing a with
  | nil => intro p hp; cases hp
  | cons u us ih =>
    intro p hp j2 hj2
    rw [childBlocks] at hp
    cases hp with
    | head =>
      have hj2' : j2 < sizeU u := hj2
      refine ⟨j2, by rw [sizeL]; omega, rfl, ?_⟩
      rw [flatL, shiftHeap_append,
        List.get?_append (by rw [shiftHeap_length, flat_length]; omega)]
    | tail _ hmem =>
      obtain ⟨j, hj, heq, hcell⟩ := ih (a + sizeU u) p hmem j2 hj2
      refine ⟨sizeU u + j, by rw [sizeL]; omega, by omega, ?_⟩
      rw [flatL, shiftHeap_append,
        List.get?_append_right (by rw [shiftHeap_length, flat_length]; omega),
        shiftHeap_shiftHeap, shiftHeap_length, flat_length,
        Nat.add_comm (sizeU u) a]
      have h5 : sizeU u + j - sizeU u = j := by omega
      rw [h5]
      exact hcell

theorem rewriteNodeData_children (tbl : List (Nat × Nat)) (str : List Nat)
    (nd nd2 : NodeData) (h : rewriteNodeData tbl str nd = some nd2) :
    nd2.children = nd.children := by
  simp only [rewriteNodeData, Option.bind_eq_some, Option.map_eq_some'] at h
  obtain ⟨sp, h1, ep, h2, h3⟩ := h
  rw [← h3]

/-- Blocks occupy disjoint index intervals. -/
def BlockDisj (p q : Nat × UNode) : Prop :=
  p.1 + sizeU p.2 ≤ q.1 ∨ q.1 + sizeU q.2 ≤ p.1

theorem sizeL_append (xs ys : List UNode) :
    sizeL (xs ++ ys) = sizeL xs + sizeL ys := by
  induction xs with
  | nil => simp [sizeL]
  | cons x xs ih => rw [List.cons_append, sizeL, sizeL, ih]; omega

theorem childBlocks_snd (cs : List UNode) (a : Nat) :
    (childBlocks a cs).map Prod.snd = cs := by
  induction cs generalizing a with
  | nil => rfl
  | cons u us ih => rw [childBlocks, List.map_cons, ih]

theorem childBlocks_pairwise (cs : List UNode) (a : Nat) :
    List.Pairwise BlockDisj (childBlocks a cs) := by
  induction cs generalizing a with
  | nil => exact List.Pairwise.nil
  | cons u us ih =>
    rw [childBlocks]
    refine List.Pairwise.cons ?_ (ih (a + sizeU u))
    intro q hq
    have hb := (childBlocks_bounds us (a + sizeU u) q hq).1
    left
    show a + sizeU u ≤ q.1
    omega

theorem childBlocks_cover (cs : List UNode) (a j : Nat) (hj : j < sizeL cs) :
    ∃ p ∈ childBlocks a cs, ∃ j2, j2 < sizeU p.2 ∧ a + j = p.1 + j2 ∧
      (shiftHeap a (flatL cs)).get? j = (shiftHeap p.1 (flat p.2)).get? j2 := by
  induction cs generalizing a j with
  | nil => rw [sizeL] at hj; omega
  | cons u us ih =>
    rcases Nat.lt_or_ge j (sizeU u) with h | h
    · refine ⟨(a, u), List.mem_cons_self _ _, j, h, rfl, ?_⟩
      rw [flatL, shiftHeap_append,
        List.get?_append (by rw [shiftHeap_length, flat_length]; omega)]
    · rw [sizeL] at hj
      obtain ⟨p, hp, j2, hj2, heq, hcell⟩ :=
        ih (a + sizeU u) (j - sizeU u) (by omega)
      refine ⟨p, List.mem_cons_of_mem _ hp, j2, hj2, by omega, ?_⟩
      rw [flatL, shiftHeap_append,
        List.get?_append_right (by rw [shiftHeap_length, flat_length]; omega),
        shiftHeap_shiftHeap, shiftHeap_length, flat_length,
        Nat.add_comm (sizeU u) a]
      exact hcell

theorem rewriteBFS_blocks (tbl : List (Nat × Nat)) (str : List Nat)
    (fuel : Nat) :
    ∀ (ts : List (Nat × UNode)) (H : Heap),
    sizeL (ts.map Prod.snd) ≤ fuel →
    (∀ p ∈ ts, p.1 + sizeU p.2 ≤ H.length) →
    List.Pairwise BlockDisj ts →
    (∀ p ∈ ts, ∀ j, j < sizeU p.2 →
      H.get? (p.1 + j) = (shiftHeap p.1 (flat p.2)).get? j) →
    (∀ p ∈ ts, ∀ j, j < sizeU p.2 → ∀ nd,
      (shiftHeap p.1 (flat p.2)).get? j = some nd →
      (rewriteNodeData tbl str nd).isSome = true) →
    ∃ H2,
      rewriteBFS tbl str fuel H (ts.map fun p => p.1 + sizeU p.2 - 1) = some H2 ∧
      H2.length = H.length ∧
      (∀ j, (∀ p ∈ ts, j < p.1 ∨ p.1 + sizeU p.2 ≤ j) →
        H2.get? j = H.get? j) ∧
      (∀ p ∈ ts, ∀ j, j < sizeU p.2 →
        H2.get? (p.1 + j) =
          ((shiftHeap p.1 (flat p.2)).get? j).bind (rewriteNodeData tbl str)) := by
  induction fuel with
  | zero =>
    intro ts H hfuel hbound hdisj hcells hrw
    cases ts with
    | nil =>
      refine ⟨H, ?_, rfl, fun j _ => rfl,
        fun p hp => absurd hp (List.not_mem_nil p)⟩
      rw [List.map_nil, rewriteBFS]
    | cons p ts' =>
      rw [List.map_cons, sizeL] at hfuel
      have := sizeU_pos p.2
      omega
  | succ f ih =>
    intro ts H hfuel hbound hdisj hcells hrw
    cases ts with
    | nil =>
      refine ⟨H, ?_, rfl, fun j _ => rfl,
        fun p hp => absurd hp (List.not_mem_nil p)⟩
      rw [List.map_nil, rewriteBFS]
    | cons p ts' =>
      obtain ⟨a, t⟩ := p
      obtain ⟨sp, ep, cs⟩ := t
      obtain ⟨hd, htl⟩ := List.pairwise_cons.mp hdisj
      have hb0 : a + sizeU (UNode.mk sp ep cs) ≤ H.length :=
        hbound (a, UNode.mk sp ep cs) (List.mem_cons_self _ _)
      rw [sizeU] at hb0
      -- the root cell of the first block
      have hcell0 : (shiftHeap a (flat (UNode.mk sp ep cs))).get? (sizeL cs) =
          some ⟨sp, ep, (rootsOf cs).map (· + a)⟩ := by
        rw [flat, shiftHeap_append,
          List.get?_append_right (by simp [shiftHeap_length, flatL_length])]
        simp [shiftHeap_length, flatL_length, shiftHeap]
      have h1 : H.get? (a + sizeL cs) =
          some ⟨sp, ep, (rootsOf cs).map (· + a)⟩ := by
        have hc := hcells (a, UNode.mk sp ep cs) (List.mem_cons_self _ _)
          (sizeL cs) (show sizeL cs < sizeU (UNode.mk sp ep cs) by
            rw [sizeU]; omega)
        exact hc.trans hcell0
      have hrwRoot := hrw (a, UNode.mk sp ep cs) (List.mem_cons_self _ _)
        (sizeL cs) (show sizeL cs < sizeU (UNode.mk sp ep cs) by
          rw [sizeU]; omega) _ hcell0
      obtain ⟨nd2, hnd2⟩ := Option.isSome_iff_exists.mp hrwRoot
      have hqeq : ((a, UNode.mk sp ep cs) :: ts').map
            (fun p => p.1 + sizeU p.2 - 1) =
          (a + sizeL cs) :: ts'.map (fun p => p.1 + sizeU p.2 - 1) := by
        rw [List.map_cons]
        congr 1
      -- hypotheses of the inductive step for the remaining blocks
      have hfuel2 : sizeL ((ts' ++ childBlocks a cs).map Prod.snd) ≤ f := by
        rw [List.map_append, sizeL_append, childBlocks_snd]
        have hfuel' : sizeU (UNode.mk sp ep cs) +
            sizeL (ts'.map Prod.snd) ≤ f + 1 := by
          rw [List.map_cons, sizeL] at hfuel
          exact hfuel
        rw [sizeU] at hfuel'
        omega
      have hbound2 : ∀ q ∈ ts' ++ childBlocks a cs,
          q.1 + sizeU q.2 ≤ (H.set (a + sizeL cs) nd2).length := by
        intro q hq
        rw [List.length_set]
        rcases List.mem_append.mp hq with hq | hq
        · exact hbound q (List.mem_cons_of_mem _ hq)
        · have hb := childBlocks_bounds cs a q hq
          omega
      have hdisj2 : List.Pairwise BlockDisj (ts' ++ childBlocks a cs) := by
        rw [List.pairwise_append]
        refine ⟨htl, childBlocks_pairwise cs a, ?_⟩
        intro x hx y hy
        have hby := childBlocks_bounds cs a y hy
        rcases hd x hx with h | h
        · have h' : a + sizeU (UNode.mk sp ep cs) ≤ x.1 := h
          rw [sizeU] at h'
          exact Or.inr (by omega)
        · have h' : x.1 + sizeU x.2 ≤ a := h
          exact Or.inl (by omega)
      have hcells2 : ∀ q ∈ ts' ++ childBlocks a cs, ∀ j, j < sizeU q.2 →
          (H.set (a + sizeL cs) nd2).get? (q.1 + j) =
            (shiftHeap q.1 (flat q.2)).get? j := by
        intro q hq j hj
        rcases List.mem_append.mp hq with hq | hq
        · have hne : a + sizeL cs ≠ q.1 + j := by
            rcases hd q hq with h | h
            · have h' : a + sizeU (UNode.mk sp ep cs) ≤ q.1 := h
              rw [sizeU] at h'
              omega
            · have h' : q.1 + sizeU q.2 ≤ a := h
              omega
          rw [List.get?_set_ne _ _ hne]
          exact hcells q (List.mem_cons_of_mem _ hq) j hj
        · obtain ⟨j0, hj0, heq0, hcell0'⟩ := childBlocks_cell cs a q hq j hj
          rw [← heq0, List.get?_set_ne _ _ (by omega)]
          rw [← hcell0']
          have hc' : H.get? (a + j0) =
              (shiftHeap a (flat (UNode.mk sp ep cs))).get? j0 :=
            hcells (a, UNode.mk sp ep cs) (List.mem_cons_self _ _) j0
              (show j0 < sizeU (UNode.mk sp ep cs) by rw [sizeU]; omega)
          rw [hc', flat, shiftHeap_append,
            List.get?_append (by rw [shiftHeap_length, flatL_length]; omega)]
      have hrw2 : ∀ q ∈ ts' ++ childBlocks a cs, ∀ j, j < sizeU q.2 → ∀ nd,
          (shiftHeap q.1 (flat q.2)).get? j = some nd →
          (rewriteNodeData tbl str nd).isSome = true := by
        intro q hq j hj nd hnd
        rcases List.mem_append.mp hq with hq | hq
        · exact hrw q (List.mem_cons_of_mem _ hq) j hj nd hnd
        · obtain ⟨j0, hj0, heq0, hcell0'⟩ := childBlocks_cell cs a q hq j hj
          apply hrw (a, UNode.mk sp ep cs) (List.mem_cons_self _ _) j0
            (show j0 < sizeU (UNode.mk sp ep cs) by rw [sizeU]; omega) nd
          rw [flat, shiftHeap_append,
            List.get?_append (by rw [shiftHeap_length, flatL_length]; omega),
            hcell0']
          exact hnd
      obtain ⟨H2, hbfs2, hlen2, hun2, hcl2⟩ :=
        ih (ts' ++ childBlocks a cs) (H.set (a + sizeL cs) nd2)
          hfuel2 hbound2 hdisj2 hcells2 hrw2
      rw [List.length_set] at hlen2
      refine ⟨H2, ?_, hlen2, ?_, ?_⟩
      · rw [hqeq, rewriteBFS, h1]
        dsimp only
        rw [hnd2]
        dsimp only
        rw [← childBlocks_roots, ← List.map_append]
        exact hbfs2
      · intro j hout
        have houtp : j < a ∨ a + sizeU (UNode.mk sp ep cs) ≤ j :=
          hout (a, UNode.mk sp ep cs) (List.mem_cons_self _ _)
        rw [sizeU] at houtp
        have h2un := hun2 j (by
          intro q hq
          rcases List.mem_append.mp hq with hq | hq
          · exact hout q (List.mem_cons_of_mem _ hq)
          · have hb := childBlocks_bounds cs a q hq
            rcases houtp with h | h
            · exact Or.inl (by omega)
            · exact Or.inr (by omega))
        rw [h2un, List.get?_set_ne _ _ (by omega)]
      · intro q hq j hj
        rcases List.mem_cons.mp hq with hq | hq
        · subst hq
          have hj' : j < sizeL cs + 1 := by
            have hj2 : j < sizeU (UNode.mk sp ep cs) := hj
            rw [sizeU] at hj2
            exact hj2
          show H2.get? (a + j) =
            ((shiftHeap a (flat (UNode.mk sp ep cs))).get? j).bind
              (rewriteNodeData tbl str)
          rcases Nat.lt_or_ge j (sizeL cs) with hjlt | hjge
          · obtain ⟨y, hy, j2, hj2, heqy, hcy⟩ := childBlocks_cover cs a j hjlt
            rw [heqy, hcl2 y (List.mem_append_right _ hy) j2 hj2, ← hcy,
              flat, shiftHeap_append,
              List.get?_append (by rw [shiftHeap_length, flatL_length]; omega)]
          · have hje : j = sizeL cs := by omega
            subst hje
            have h2un := hun2 (a + sizeL cs) (by
              intro y hy
              rcases List.mem_append.mp hy with hy | hy
              · rcases hd y hy with h | h
                · have h' : a + sizeU (UNode.mk sp ep cs) ≤ y.1 := h
                  rw [sizeU] at h'
                  exact Or.inl (by omega)
                · have h' : y.1 + sizeU y.2 ≤ a := h
                  exact Or.inr (by omega)
              · have hb := childBlocks_bounds cs a y hy
                exact Or.inr (by omega))
            rw [h2un, List.get?_set_eq_of_lt _ (by omega), hcell0]
            exact hnd2.symm
        · exact hcl2 q (List.mem_append_left _ hq) j hj

theorem rewriteNodeData_isSome (tbl : List (Nat × Nat)) (str : List Nat)
    (nd : NodeData) :
    (rewriteNodeData tbl str nd).isSome = true ↔
      (convertPosition tbl str nd.startPosition).isSome = true ∧
      (convertPosition tbl str nd.endPosition).isSome = true := by
  unfold rewriteNodeData
  cases convertPosition tbl str nd.startPosition <;>
    cases convertPosition tbl str nd.endPosition <;> simp

/-- C9.  `convert_uast` never mutates the caller's tree and returns an
independent, fully rewritten copy.  For any non-empty content and any
parse tree (stored as the heap block `flat t` with root index
`sizeU t - 1`) whose positions all resolve through the byte-offset table:
the call succeeds, the returned root is a fresh cell after the original
block, the original block is bit-for-bit unchanged (frame property), every
cell of the returned copy is exactly the position-rewrite of the
corresponding copied cell (children pointers untouched, so the copy has
the original's shape), and an all-zero `(offset, line, col)` position
passes through the rewrite unchanged. -/
theorem c9_convert_uast_frame (content : List Nat) (t : UNode) (root : Nat)
    (hroot : root = sizeU t - 1) (hc : content ≠ [])
    (hrw : ∀ nd ∈ flat t,
      (convertPosition (buildBytesToStrOffsetMapping content)
          (utf8DecodeReplace content) nd.startPosition).isSome = true ∧
        (convertPosition (buildBytesToStrOffsetMapping content)
          (utf8DecodeReplace content) nd.endPosition).isSome = true) :
    ∃ h2,
      convertUast content (flat t) root = some (h2, root + sizeU t) ∧
      h2.length = 2 * sizeU t ∧
      h2.take (sizeU t) = flat t ∧
      (∀ j, j < sizeU t →
        h2.get? (sizeU t + j) =
          ((shiftHeap (sizeU t) (flat t)).get? j).bind
            (rewriteNodeData (buildBytesToStrOffsetMapping content)
              (utf8DecodeReplace content))) ∧
      (∀ p : Position, p.offset = 0 → p.col = 0 → p.line = 0 →
        convertPosition (buildBytesToStrOffsetMapping content)
          (utf8DecodeReplace content) p = some p) := by
  have hn := flat_length t
  have hpos := sizeU_pos t
  have hkey := rewriteBFS_blocks (buildBytesToStrOffsetMapping content)
    (utf8DecodeReplace content)
    (flat t ++ shiftHeap (flat t).length (flat t)).length
    [((flat t).length, t)]
    (flat t ++ shiftHeap (flat t).length (flat t))
    (by
      simp only [List.map_cons, List.map_nil, sizeL, List.length_append,
        shiftHeap_length]
      omega)
    (by
      intro p hp
      simp only [List.mem_singleton] at hp
      subst hp
      simp only [List.length_append, shiftHeap_length]
      show (flat t).length + sizeU t ≤ (flat t).length + (flat t).length
      omega)
    (List.pairwise_singleton _ _)
    (by
      intro p hp j hj
      simp only [List.mem_singleton] at hp
      subst hp
      show (flat t ++ shiftHeap (flat t).length (flat t)).get?
          ((flat t).length + j) = _
      rw [List.get?_append_right (by omega)]
      have h5 : (flat t).length + j - (flat t).length = j := by omega
      rw [h5])
    (by
      intro p hp j hj nd hnd
      simp only [List.mem_singleton] at hp
      subst hp
      have hnd' : ((flat t).get? j).map
          (fun nd => { nd with
            children := nd.children.map (· + (flat t).length) }) = some nd := by
        rw [← List.get?_map]
        exact hnd
      obtain ⟨nd0, h0, hmap⟩ := Option.map_eq_some'.mp hnd'
      have hmem := List.get?_mem h0
      have hpos0 := hrw nd0 hmem
      rw [rewriteNodeData_isSome, ← hmap]
      exact ⟨hpos0.1, hpos0.2⟩)
  obtain ⟨H2, hbfs, hlen, hun, hcl⟩ := hkey
  refine ⟨H2, ?_, ?_, ?_, ?_, ?_⟩
  · simp only [convertUast]
    rw [if_neg (by simp [List.isEmpty_iff, hc])]
    have hdc : deepCopyHeap (flat t) = shiftHeap (flat t).length (flat t) := rfl
    rw [hdc]
    have hq : [root + (flat t).length] =
        [((flat t).length, t)].map (fun p => p.1 + sizeU p.2 - 1) := by
      simp only [List.map_cons, List.map_nil]
      show _ = [(flat t).length + sizeU t - 1]
      rw [hroot, hn]
      congr 1
      omega
    rw [hq, hbfs]
    simp only [Option.map_some']
    rw [hn]
  · rw [List.length_append, shiftHeap_length, hn] at hlen
    omega
  · apply List.ext_get?
    intro m
    by_cases hm : m < sizeU t
    · rw [List.get?_take hm]
      rw [hun m (by
        intro p hp
        simp only [List.mem_singleton] at hp
        subst hp
        left
        show m < (flat t).length
        omega)]
      rw [List.get?_append (by omega)]
    · have h1 : (List.take (sizeU t) H2).get? m = none :=
        List.get?_eq_none.mpr (by rw [List.length_take]; omega)
      have h2 : (flat t).get? m = none := List.get?_eq_none.mpr (by omega)
      rw [h1, h2]
  · intro j hj
    have hc2 := hcl ((flat t).length, t) (List.mem_singleton.mpr rfl) j
      (show j < sizeU t from hj)
    rw [← hn]
    exact hc2
  · intro p h1 h2 h3
    simp [convertPosition, h1, h2, h3]

/-- A two-node tree for the C9 witness: the root's start position is the
all-zero sentinel, every other position resolves on content `b"ab\n"`. -/
def c9Tree : UNode :=
  UNode.mk ⟨0, 0, 0⟩ ⟨3, 1, 4⟩ [UNode.mk ⟨0, 1, 1⟩ ⟨2, 1, 3⟩ []]

theorem c9_convert_uast_frame_witness :
    ∃ h2,
      convertUast [97, 98, 10] (flat c9Tree) 1 = some (h2, 1 + sizeU c9Tree) ∧
      h2.length = 2 * sizeU c9Tree ∧
      h2.take (sizeU c9Tree) = flat c9Tree ∧
      (∀ j, j < sizeU c9Tree →
        h2.get? (sizeU c9Tree + j) =
          ((shiftHeap (sizeU c9Tree) (flat c9Tree)).get? j).bind
            (rewriteNodeData (buildBytesToStrOffsetMapping [97, 98, 10])
              (utf8DecodeReplace [97, 98, 10]))) ∧
      (∀ p : Position, p.offset = 0 → p.col = 0 → p.line = 0 →
        convertPosition (buildBytesToStrOffsetMapping [97, 98, 10])
          (utf8DecodeReplace [97, 98, 10]) p = some p) :=
  c9_convert_uast_frame [97, 98, 10] c9Tree 1 (by decide) (by decide) (by decide)
